import Mathlib

/-!
Verification development for the giscloudjs interactive map engine.

The development shallowly embeds the engine's core data types and algorithms:

* the pixel-space `Point` and `Bounds` value types (`src/lib/geometry/Point.ts`,
  the `min`/`max` `Bounds` class of `src/lib/geometry/support/LatLngBounds.ts`);
* the tile-grid bookkeeping of `GridLayer` (`_update`, `_pruneTiles`,
  `_retainParent`, `_retainChildren`, `_wrapCoords`, `_addTile`,
  `_tileCoordsToKey`);
* the view controller `DMap` (`setView`, `_resetView`, `_limitCenter`,
  `_getBoundsOffset`, `_rebound`, `_limitZoom`, `getBoundsZoom`) and the
  spherical-mercator projection pipeline.

JavaScript numbers are modelled as `ℚ` in the purely arithmetic fragments
(decidable, executable) and as `ℝ` in the projection pipeline, which uses
transcendental functions.  JavaScript `Math.round` is half-up rounding,
`Math.trunc` rounds toward zero, and `%` is the truncated remainder; the
helpers below embed those semantics.
-/

namespace GisCloud


/-- JavaScript `Math.round` on rationals: half-up rounding, `⌊q + 1/2⌋`. -/
def jsRound (q : ℚ) : ℚ := (⌊q + 1/2⌋ : ℤ)

/-- JavaScript `Math.trunc` on rationals: rounding toward zero. -/
def jsTrunc (q : ℚ) : ℚ := if q < 0 then (⌈q⌉ : ℤ) else (⌊q⌋ : ℤ)

/-- JavaScript `a % b` (truncated remainder, sign of the dividend). -/
def jsMod (a b : ℚ) : ℚ := a - b * jsTrunc (a / b)

/-- `Point` of `src/lib/geometry/Point.ts`: a pixel-space 2D vector.
The class also carries a `z` slot used for tile coordinates; tile
coordinates are modelled separately as `TCoord`. -/
structure PointQ where
  x : ℚ
  y : ℚ
deriving DecidableEq

namespace PointQ

/-- `Point.clone`: returns a copy of the current point. -/
def clone (p : PointQ) : PointQ := ⟨p.x, p.y⟩

/-- `Point.trunc` as written in the source: it truncates a clone of the
receiver (`target`) but then returns `this`, so the truncated copy is
discarded and the receiver is returned unchanged. -/
def trunc (p : PointQ) : PointQ :=
  let target := p.clone
  let target := { target with x := jsTrunc target.x }
  let _target := { target with y := jsTrunc target.y }
  p

/-- `Point.round` as written in the source: like `trunc`, it rounds a clone
but returns `this` unchanged. -/
def round (p : PointQ) : PointQ :=
  let target := p.clone
  let target := { target with x := jsRound target.x }
  let _target := { target with y := jsRound target.y }
  p

/-- `Point.add`: clones the receiver, adds componentwise, returns the clone. -/
def add (p q : PointQ) : PointQ :=
  let target := p.clone
  let target := { target with x := target.x + q.x }
  { target with y := target.y + q.y }

/-- `Point.subtract`. -/
def subtract (p q : PointQ) : PointQ :=
  let target := p.clone
  let target := { target with x := target.x - q.x }
  { target with y := target.y - q.y }

/-- `Point.divideBy`. -/
def divideBy (p : PointQ) (num : ℚ) : PointQ :=
  let target := p.clone
  let target := { target with x := target.x / num }
  { target with y := target.y / num }

/-- `Point.multiplyBy`. -/
def multiplyBy (p : PointQ) (num : ℚ) : PointQ :=
  let target := p.clone
  let target := { target with x := target.x * num }
  { target with y := target.y * num }

/-- `Point.scaleBy`: componentwise product, fresh point. -/
def scaleBy (p q : PointQ) : PointQ := ⟨p.x * q.x, p.y * q.y⟩

/-- `Point.unscaleBy`: componentwise quotient, fresh point. -/
def unscaleBy (p q : PointQ) : PointQ := ⟨p.x / q.x, p.y / q.y⟩

/-- `Point.equals`: exact componentwise comparison. -/
def equalsP (p q : PointQ) : Bool := q.x == p.x && q.y == p.y

end PointQ


/-- A rational is an integer iff its reduced denominator is 1. -/
def intCoord (q : ℚ) : Prop := q.den = 1

instance (q : ℚ) : Decidable (intCoord q) := by unfold intCoord; infer_instance

/-- A point has integer coordinates iff both components are integers. -/
def intCoords (p : PointQ) : Prop := intCoord p.x ∧ intCoord p.y

instance (p : PointQ) : Decidable (intCoords p) := by unfold intCoords; infer_instance

/-- The `Bounds` class of `src/lib/geometry/support/LatLngBounds.ts`
(fields `min`, `max`).  Its constructor stores the two corner options
directly: `this.min = options.topLeft; this.max = options.bottomRight`,
with no componentwise normalisation. -/
structure BoundsQ where
  min : PointQ
  max : PointQ
deriving DecidableEq

namespace BoundsQ

/-- The `Bounds` constructor: stores `topLeft` as `min` and `bottomRight`
as `max`, exactly as given. -/
def ofCorners (topLeft bottomRight : PointQ) : BoundsQ := ⟨topLeft, bottomRight⟩

/-- `Bounds.extend(min, max)` acting on the nullable `min`/`max` state:
when both fields are unset (`none`, the freshly-created empty bounds) the
arguments are cloned in; otherwise the stored corners are widened
componentwise.  The method always leaves both fields set, so it returns a
`BoundsQ`. -/
def extendFrom (b : Option BoundsQ) (minP maxP : PointQ) : BoundsQ :=
  match b with
  | none => ⟨minP.clone, maxP.clone⟩
  | some bb =>
      ⟨⟨Min.min minP.x bb.min.x, Min.min minP.y bb.min.y⟩,
       ⟨Max.max maxP.x bb.max.x, Max.max maxP.y bb.max.y⟩⟩

/-- `Bounds.getCenter`. -/
def getCenter (b : BoundsQ) : PointQ :=
  ⟨(b.min.x + b.max.x) / 2, (b.min.y + b.max.y) / 2⟩

/-- `Bounds.getBottomLeft`: `(min.x, max.y)`. -/
def getBottomLeft (b : BoundsQ) : PointQ := ⟨b.min.x, b.max.y⟩

/-- `Bounds.getTopRight`: `(max.x, min.y)`. -/
def getTopRight (b : BoundsQ) : PointQ := ⟨b.max.x, b.min.y⟩

/-- `Bounds.getSize`: `max.subtract(min)`. -/
def getSize (b : BoundsQ) : PointQ := b.max.subtract b.min

/-- `Bounds.contains` for a point target (`min = max = target`). -/
def containsPoint (b : BoundsQ) (p : PointQ) : Bool :=
  p.x ≥ b.min.x && p.x ≤ b.max.x && p.y ≥ b.min.y && p.y ≤ b.max.y

end BoundsQ


/-- The `min ≤ max` componentwise invariant of a pixel-space rectangle. -/
def boundsOrdered (b : BoundsQ) : Prop :=
  b.min.x ≤ b.max.x ∧ b.min.y ≤ b.max.y

instance (b : BoundsQ) : Decidable (boundsOrdered b) := by
  unfold boundsOrdered; infer_instance

/-! ## Tile-grid engine (`GridLayer`)

Tile coordinates are the `Point`-with-`z` triples of the source; the tile
cache `this._tiles` is a string-keyed map whose keys are the encodings
`"x:y:z"` of the stored coordinates, modelled here as an
association list keyed by the coordinate triple itself (the string encoding
is injective on the coordinates actually enumerated). -/

/-- A tile coordinate `{x, y, z}`. -/
structure TCoord where
  x : ℚ
  y : ℚ
  z : ℚ
deriving DecidableEq

/-- A tile-cache entry: stored coordinate plus lifecycle flags.  The
source's `loaded` timestamp is modelled by its truthiness. -/
structure Tile where
  coords : TCoord
  current : Bool
  loaded : Bool
  active : Bool
  retain : Bool
deriving DecidableEq

/-- The tile cache `this._tiles`. -/
abbrev TileCache := List (TCoord × Tile)

/-- Lookup of `this._tiles[key]`. -/
def lookupTile (key : TCoord) : TileCache → Option Tile
  | [] => none
  | (k, t) :: rest => if k = key then some t else lookupTile key rest

/-- `_tileCoordsToKey`: `coords.x + ':' + coords.y + ':' + coords.z`. -/
def tileCoordsToKey (c : TCoord) : String :=
  toString c.x ++ ":" ++ toString c.y ++ ":" ++ toString c.z

/-- `NumberUtil.wrapNum(x, [lo, hi])` without `includeMax`:
`(((x - min) % d) + d) % d + min` with JavaScript's truncated `%`. -/
def wrapNum (x lo hi : ℚ) : ℚ :=
  jsMod (jsMod (x - lo) (hi - lo) + (hi - lo)) (hi - lo) + lo

/-- The wrap configuration computed by `_resetGrid`: `_wrapX`/`_wrapY` are
tile-index ranges when the CRS wraps that axis and `noWrap` is unset. -/
structure WrapState where
  wrapX : Option (ℚ × ℚ)
  wrapY : Option (ℚ × ℚ)

/-- `_wrapCoords`: wraps each axis into its configured range, preserving `z`. -/
def wrapCoords (st : WrapState) (c : TCoord) : TCoord :=
  ⟨(match st.wrapX with | some r => wrapNum c.x r.1 r.2 | none => c.x),
   (match st.wrapY with | some r => wrapNum c.y r.1 r.2 | none => c.y),
   c.z⟩

/-- `_getTilePos`: `coords.scaleBy(tileSize).subtract(level.origin)`. -/
def getTilePos (c : TCoord) (tileSize origin : PointQ) : PointQ :=
  (PointQ.scaleBy ⟨c.x, c.y⟩ tileSize).subtract origin

/-- The observable effect of `_addTile(coords)`: the cache key under which
the new tile record is stored, the coordinate handed to the tile factory
`createTile`, and the on-screen position given to `DomUtil.setPosition`. -/
structure AddTileView where
  key : String
  createTileArg : TCoord
  pos : PointQ
deriving DecidableEq

/-- `_addTile`: `tilePos = _getTilePos(coords)`, `key =
_tileCoordsToKey(coords)` (the unwrapped enumeration coordinate), and
`createTile(this._wrapCoords(coords), …)`. -/
def addTile (st : WrapState) (tileSize origin : PointQ) (c : TCoord) : AddTileView :=
  { key := tileCoordsToKey c
    createTileArg := wrapCoords st c
    pos := getTilePos c tileSize origin }

/-! ### `_update`: marking, the non-finite guard and the load queue -/

/-- The `noPruneRange` of `_update`: a `Bounds` built from
`tileRange.getBottomLeft().subtract([margin, -margin])` and
`tileRange.getTopRight().add([margin, -margin])`.  (The non-normalising
constructor stores these two corners as `min` and `max` directly.) -/
def noPruneRange (tileRange : BoundsQ) (margin : ℚ) : BoundsQ :=
  BoundsQ.ofCorners
    ((tileRange.getBottomLeft).subtract ⟨margin, -margin⟩)
    ((tileRange.getTopRight).add ⟨margin, -margin⟩)

/-- The keep-buffer-padded tile range as the spec describes it (reference
definition for comparison): the tile range padded outward by the
keep-buffer margin on every side. -/
def specPaddedRange (tileRange : BoundsQ) (margin : ℚ) : BoundsQ :=
  ⟨tileRange.min.subtract ⟨margin, margin⟩, tileRange.max.add ⟨margin, margin⟩⟩

/-- The marking condition of `_update`: a cached tile is marked
`current = false` when `c.z !== this._tileZoom ||
!noPruneRange.contains(new Point(c))`. -/
def markNonCurrent (tz : ℚ) (npr : BoundsQ) (c : TCoord) : Bool :=
  (c.z != tz) || !(npr.containsPoint ⟨c.x, c.y⟩)

/-- The marking loop of `_update` over the cache. -/
def updateMark (tiles : TileCache) (tz : ℚ) (npr : BoundsQ) : TileCache :=
  tiles.map fun e =>
    if markNonCurrent tz npr e.2.coords then (e.1, { e.2 with current := false }) else e

/-- The y/x values visited by `for (let v = a; v <= b; v++)`. -/
def qSteps (a b : ℚ) : List ℚ :=
  (List.range (1 + ⌊b - a⌋).toNat).map fun i => a + i

/-- Sets `tile.current = true` on the cached tile at `key`. -/
def setCurrentTrue (key : TCoord) (tiles : TileCache) : TileCache :=
  tiles.map fun e => if e.1 = key then (e.1, { e.2 with current := true }) else e

/-- The enumeration loop of `_update`: every coordinate of the tile range
at the active tile zoom is skipped when invalid, re-marked `current` when
already cached, and queued for loading otherwise.  (The distance sort of
the queue is not modelled; no property below concerns load order.) -/
def glUpdateScan (tiles : TileCache) (tz : ℚ) (isValid : TCoord → Bool)
    (tileRange : BoundsQ) : TileCache × List TCoord :=
  (qSteps tileRange.min.y tileRange.max.y).foldl
    (fun acc yv =>
      (qSteps tileRange.min.x tileRange.max.x).foldl
        (fun acc2 xv =>
          let coords : TCoord := ⟨xv, yv, tz⟩
          if !(isValid coords) then acc2
          else
            match lookupTile coords acc2.1 with
            | some _ => (setCurrentTrue coords acc2.1, acc2.2)
            | none => (acc2.1, acc2.2 ++ [coords]))
        acc)
    (tiles, [])

/-- The tile range computed by `_update` (`_pxBoundsToTileRange` of the
tiled pixel bounds); a `none` component models a non-finite (infinite or
NaN) bound, which `isFinite` rejects. -/
structure RangeJS where
  minx : Option ℚ
  miny : Option ℚ
  maxx : Option ℚ
  maxy : Option ℚ

/-- The `isFinite` conjunction of `_update`'s sanity check. -/
def rangeFinite (r : RangeJS) : Bool :=
  r.minx.isSome && r.miny.isSome && r.maxx.isSome && r.maxy.isSome

/-- The error message thrown by `_update` on a non-finite tile range. -/
def infiniteTilesMsg : String := "Attempted to load an infinite number of tiles"

/-- The outcome of one `_update` step: a thrown error (if any), the tile
cache at exit, the load queue, and whether the step deferred to
`_setView` because the zoom changed by more than one level. -/
structure UpdateOut where
  err : Option String
  tiles : TileCache
  queue : List TCoord
  deferred : Bool
deriving DecidableEq

/-- `_update` from the tile range on: the sanity check throws before the
marking loop touches any `current` flag (the `noPruneRange` construction
itself is a pure computation), then cached tiles are marked non-current,
then either the update defers to `_setView` (zoom moved by more than one
level) or the range is enumerated into the load queue. -/
def glUpdate (tiles : TileCache) (tz zoom : ℚ) (range : RangeJS) (margin : ℚ)
    (isValid : TCoord → Bool) : UpdateOut :=
  match range.minx, range.miny, range.maxx, range.maxy with
  | some ax, some ay, some bx, some bY =>
      let tileRange := BoundsQ.ofCorners ⟨ax, ay⟩ ⟨bx, bY⟩
      let npr := noPruneRange tileRange margin
      let tiles1 := updateMark tiles tz npr
      if |zoom - tz| > 1 then ⟨none, tiles1, [], true⟩
      else
        let sc := glUpdateScan tiles1 tz isValid tileRange
        ⟨none, sc.1, sc.2, false⟩
  | _, _, _, _ => ⟨some infiniteTilesMsg, tiles, [], false⟩

/-! ## View-controller events (`DMap._resetView` and its helpers)

The events fired by the `DMap` code itself on the non-animated reset path
of `setView`.  Which events fire depends only on the zoom arithmetic
(`_limitZoom`) and the flags below; the center argument is stored but
never influences the event sequence.  Subscriber reactions are outside
the event bus boundary. -/

/-- The map events fired on the reset path. -/
inductive MapEv
  | viewprereset
  | zoomstart
  | movestart
  | zoom
  | move
  | zoomend
  | moveend
  | viewreset
  | load
deriving DecidableEq

/-- The view-state fragment that determines the reset-path event trace:
current `_zoom`, the zoom limits and snap of the options, `Browser.any3d`,
and whether the map has loaded before. -/
structure MapVStateQ where
  zoom : ℚ
  minZoom : ℚ
  maxZoom : ℚ
  zoomSnap : ℚ
  any3d : Bool
  loaded : Bool

/-- `_limitZoom`: snap to the zoom-snap granularity (when nonzero), then
clamp into `[minZoom, maxZoom]`. -/
def limitZoom (m : MapVStateQ) (z : ℚ) : ℚ :=
  let snap := if m.any3d then m.zoomSnap else 1
  let z1 := if snap ≠ 0 then jsRound (z / snap) * snap else z
  Max.max m.minZoom (Min.min m.maxZoom z1)

/-- `_moveStart(zoomChanged, noMoveStart)`: fires `zoomstart` when the
zoom is changing and `movestart` unless suppressed. -/
def moveStartEvents (zoomChanged noMoveStart : Bool) : List MapEv :=
  (if zoomChanged then [MapEv.zoomstart] else [])
    ++ (if !noMoveStart then [MapEv.movestart] else [])

/-- `_move(center, zoom)` on the reset path (no data, events not
suppressed): fires `zoom` when the zoom is changing, then `move`.  The
`zoomChanged` recomputed inside `_move` equals the one computed by
`_resetView`, since `_zoom` is only assigned inside `_move` itself. -/
def moveEvents (zoomChanged : Bool) : List MapEv :=
  (if zoomChanged then [MapEv.zoom] else []) ++ [MapEv.move]

/-- `_moveEnd(zoomChanged)`: fires `zoomend` when the zoom changed, then
always `moveend`. -/
def moveEndEvents (zoomChanged : Bool) : List MapEv :=
  (if zoomChanged then [MapEv.zoomend] else []) ++ [MapEv.moveend]

/-- `_resetView(center, zoom, noMoveStart)`: limits the zoom, fires
`viewprereset`, then `_moveStart`, `_move`, `_moveEnd`, then `viewreset`,
and `load` the first time the view becomes initialised. -/
def resetViewEvents (m : MapVStateQ) (z : ℚ) (noMoveStart : Bool) : List MapEv :=
  let zoom := limitZoom m z
  let zoomChanged := decide (m.zoom ≠ zoom)
  [MapEv.viewprereset]
    ++ moveStartEvents zoomChanged noMoveStart
    ++ moveEvents zoomChanged
    ++ moveEndEvents zoomChanged
    ++ [MapEv.viewreset]
    ++ (if !m.loaded then [MapEv.load] else [])

/-- `setView` on the non-animated reset path: the zoom argument is first
limited by `setView` itself, then `_resetView` is called with it.  The
`noMoveStart` flag comes from the options (absent by default). -/
def setViewResetEvents (m : MapVStateQ) (z : ℚ) (noMoveStart : Bool) : List MapEv :=
  resetViewEvents m (limitZoom m z) noMoveStart

/-- The event kinds the ordering contract speaks about. -/
def isCoreEv : MapEv → Bool
  | MapEv.zoomstart => true
  | MapEv.movestart => true
  | MapEv.zoom => true
  | MapEv.move => true
  | MapEv.zoomend => true
  | MapEv.moveend => true
  | _ => false

/-! ## `_pruneTiles` and the retain walks -/

/-- `tile.retain = true` on the cache entry at `key` (the mutation both
retain walks perform on a found tile). -/
def markRetain (key : TCoord) (ts : TileCache) : TileCache :=
  ts.map fun e => if e.1 = key then (e.1, { e.2 with retain := true }) else e

/-- The parent coordinate `(Math.floor(x / 2), Math.floor(y / 2), z - 1)`
visited by `_retainParent`. -/
def parentCoords (x y z : ℚ) : TCoord :=
  ⟨((⌊x / 2⌋ : ℤ) : ℚ), ((⌊y / 2⌋ : ℤ) : ℚ), z - 1⟩

/-- `_retainParent(x, y, z, minZoom)`: visits the parent coordinate; an
active parent is marked retained and ends the walk successfully; a loaded
parent is marked retained and the walk continues; the walk recurses toward
lower zooms while `z2 > minZoom` and otherwise reports failure. -/
def retainParent (ts : TileCache) (x y z minZ : ℚ) : TileCache × Bool :=
  let c2 := parentCoords x y z
  match lookupTile c2 ts with
  | some t =>
      if t.active then (markRetain c2 ts, true)
      else
        let ts1 := if t.loaded then markRetain c2 ts else ts
        if z - 1 > minZ then retainParent ts1 c2.x c2.y (z - 1) minZ
        else (ts1, false)
  | none =>
      if z - 1 > minZ then retainParent ts c2.x c2.y (z - 1) minZ
      else (ts, false)
termination_by (⌈z - minZ⌉).toNat
decreasing_by
  all_goals
    have h3 : (1 : ℤ) < ⌈z - minZ⌉ := Int.lt_ceil.mpr (by push_cast; linarith)
  all_goals
    have h4 : (⌈z - 1 - minZ⌉ : ℤ) = ⌈z - minZ⌉ - 1 := by
      rw [show z - 1 - minZ = (z - minZ) - 1 by ring, Int.ceil_sub_one]
  all_goals omega

mutual

/-- `_retainChildren(x, y, z, maxZoom)`: visits the four children
`(i, j, z + 1)` for `i ∈ {2x, 2x+1}`, `j ∈ {2y, 2y+1}` in source order. -/
def retainChildren (ts : TileCache) (x y z maxZ : ℚ) : TileCache :=
  let a1 := childVisit ts (2 * x) (2 * y) z maxZ
  let a2 := childVisit a1 (2 * x) (2 * y + 1) z maxZ
  let a3 := childVisit a2 (2 * x + 1) (2 * y) z maxZ
  childVisit a3 (2 * x + 1) (2 * y + 1) z maxZ
termination_by ((⌈maxZ - z⌉).toNat, 1)
decreasing_by
  all_goals exact Prod.Lex.right _ (by omega)

/-- One iteration of the `_retainChildren` loop body at child
`(i, j, z + 1)`: an active child is marked retained and not descended
into (`continue`); a loaded child is marked retained; the walk descends
below any non-active child while `z + 1 < maxZoom`. -/
def childVisit (ts : TileCache) (i j z maxZ : ℚ) : TileCache :=
  let c : TCoord := ⟨i, j, z + 1⟩
  match lookupTile c ts with
  | some t =>
      if t.active then markRetain c ts
      else
        let ts1 := if t.loaded then markRetain c ts else ts
        if z + 1 < maxZ then retainChildren ts1 i j (z + 1) maxZ else ts1
  | none => if z + 1 < maxZ then retainChildren ts i j (z + 1) maxZ else ts
termination_by ((⌈maxZ - z⌉).toNat, 0)
decreasing_by
  all_goals
    refine Prod.Lex.left _ _ ?_
    have h3 : (1 : ℤ) < ⌈maxZ - z⌉ := Int.lt_ceil.mpr (by push_cast; linarith)
    have h4 : (⌈maxZ - (z + 1)⌉ : ℤ) = ⌈maxZ - z⌉ - 1 := by
      rw [show maxZ - (z + 1) = (maxZ - z) - 1 by ring, Int.ceil_sub_one]
    omega

end


/-- One walker step of `_pruneTiles`: for a current-but-not-active tile,
try the parent walk up to 5 levels; only when no active ancestor is found,
try the children walk up to 2 levels. -/
def pruneWalk (ts : TileCache) (c : TCoord) : TileCache :=
  let r := retainParent ts c.x c.y c.z (c.z - 5)
  if r.2 then r.1 else retainChildren r.1 c.x c.y c.z (c.z + 2)

/-- `_pruneTiles`: without a map, do nothing; with the map zoom outside
the layer's zoom range, remove all tiles; otherwise set `retain :=
current` on every tile, run the retain walks from every current-but-not-
active tile, and remove every tile not marked retained. -/
def pruneTiles (mapPresent : Bool) (zoom minZ maxZ : ℚ) (ts : TileCache) : TileCache :=
  if !mapPresent then ts
  else if zoom > maxZ ∨ zoom < minZ then []
  else
    let ts1 := ts.map fun e => (e.1, { e.2 with retain := e.2.current })
    let walkers := (ts1.filter fun e => e.2.current && !e.2.active).map fun e => e.2.coords
    let ts2 := walkers.foldl pruneWalk ts1
    ts2.filter fun e => e.2.retain

/-! ### A declarative view of the retain walks

The walks read only presence, `active` and `loaded` of cache entries and
mutate only `retain` flags, so they factor through the "activity view"
below: the walk's marked keys and found flag are pure functions of that
view, and the cache update is the marking of those keys. -/

/-- The activity view of the cache at a coordinate; an absent entry
behaves in the walks exactly like a present inactive, unloaded one. -/
def bview (ts : TileCache) (c : TCoord) : Bool × Bool :=
  match lookupTile c ts with
  | none => (false, false)
  | some t => (t.active, t.loaded)

/-- Marks a list of keys retained. -/
def applyMarks (l : List TCoord) (ts : TileCache) : TileCache :=
  ts.map fun e => (e.1, if e.1 ∈ l then { e.2 with retain := true } else e.2)

/-- The keys marked by `_retainParent` and its found flag, as a function
of the activity view. -/
def pMarks (v : TCoord → Bool × Bool) (x y z minZ : ℚ) : List TCoord × Bool :=
  let c2 := parentCoords x y z
  if (v c2).1 then ([c2], true)
  else
    let m0 := if (v c2).2 then [c2] else []
    if z - 1 > minZ then
      let r := pMarks v c2.x c2.y (z - 1) minZ
      (m0 ++ r.1, r.2)
    else (m0, false)
termination_by (⌈z - minZ⌉).toNat
decreasing_by
  all_goals
    have h3 : (1 : ℤ) < ⌈z - minZ⌉ := Int.lt_ceil.mpr (by push_cast; linarith)
  all_goals
    have h4 : (⌈z - 1 - minZ⌉ : ℤ) = ⌈z - minZ⌉ - 1 := by
      rw [show z - 1 - minZ = (z - minZ) - 1 by ring, Int.ceil_sub_one]
  all_goals omega

mutual

/-- The keys marked by `_retainChildren`, as a function of the activity
view. -/
def cMarks (v : TCoord → Bool × Bool) (x y z maxZ : ℚ) : List TCoord :=
  cVisitMarks v (2 * x) (2 * y) z maxZ
    ++ cVisitMarks v (2 * x) (2 * y + 1) z maxZ
    ++ cVisitMarks v (2 * x + 1) (2 * y) z maxZ
    ++ cVisitMarks v (2 * x + 1) (2 * y + 1) z maxZ
termination_by ((⌈maxZ - z⌉).toNat, 1)
decreasing_by
  all_goals exact Prod.Lex.right _ (by omega)

/-- The keys marked by one child visit of `_retainChildren`. -/
def cVisitMarks (v : TCoord → Bool × Bool) (i j z maxZ : ℚ) : List TCoord :=
  let c : TCoord := ⟨i, j, z + 1⟩
  if (v c).1 then [c]
  else
    (if (v c).2 then [c] else [])
      ++ (if z + 1 < maxZ then cMarks v i j (z + 1) maxZ else [])
termination_by ((⌈maxZ - z⌉).toNat, 0)
decreasing_by
  all_goals
    refine Prod.Lex.left _ _ ?_
    have h3 : (1 : ℤ) < ⌈maxZ - z⌉ := Int.lt_ceil.mpr (by push_cast; linarith)
    have h4 : (⌈maxZ - (z + 1)⌉ : ℤ) = ⌈maxZ - z⌉ - 1 := by
      rw [show maxZ - (z + 1) = (maxZ - z) - 1 by ring, Int.ceil_sub_one]
    omega

end


/-- The keys marked by one `_pruneTiles` walker step. -/
def walkMarks (v : TCoord → Bool × Bool) (c : TCoord) : List TCoord :=
  let r := pMarks v c.x c.y c.z (c.z - 5)
  if r.2 then r.1 else r.1 ++ cMarks v c.x c.y c.z (c.z + 2)

/-- The keys marked by the whole walker loop. -/
def allMarks (v : TCoord → Bool × Bool) : List TCoord → List TCoord
  | [] => []
  | w :: ws => walkMarks v w ++ allMarks v ws

/-- The `retain := current` pre-pass of `_pruneTiles`. -/
def setRC (ts : TileCache) : TileCache :=
  ts.map fun e => (e.1, { e.2 with retain := e.2.current })

/-- The walker list of `_pruneTiles`: coordinates of the current-but-not-
active tiles. -/
def walkersOf (ts : TileCache) : List TCoord :=
  (ts.filter fun e => e.2.current && !e.2.active).map fun e => e.2.coords

/-- All keys marked during one prune pass over `ts`. -/
def bigMarks (ts : TileCache) : List TCoord :=
  allMarks (bview ts) (walkersOf ts)

/-- The survival condition of one prune pass: current, or marked. -/
def keptB (l : List TCoord) (e : TCoord × Tile) : Bool :=
  e.2.current || decide (e.1 ∈ l)

/-- Retained entries end the pass with `retain = true`. -/
def retTrue (e : TCoord × Tile) : TCoord × Tile := (e.1, { e.2 with retain := true })

/-! ## The real-valued fragment: projection pipeline and view limiting

`SphericalMercator.Projection.ts`, `Transformation.ts` and the view
methods of `DMap` compute with `Math.sin`, `Math.log`, `Math.exp` and
`Math.atan`, so this fragment is embedded over `ℝ`.  `Math.round`,
`Math.floor`, `Math.ceil` keep their JS meaning on finite arguments. -/

noncomputable section

/-- JS `Math.round` over the reals: round half up. -/
def jsRoundR (x : ℝ) : ℝ := ((⌊x + 1/2⌋ : ℤ) : ℝ)

/-- JS `Math.floor` over the reals. -/
def jsFloorR (x : ℝ) : ℝ := ((⌊x⌋ : ℤ) : ℝ)

/-- JS `Math.ceil` over the reals. -/
def jsCeilR (x : ℝ) : ℝ := ((⌈x⌉ : ℤ) : ℝ)

/-- A geographic coordinate (`LatLng`), degrees. -/
structure LatLngR where
  lat : ℝ
  lng : ℝ

/-- A pixel-space point over `ℝ` (`Point` of `geometry/Point.ts`). -/
structure PointR where
  x : ℝ
  y : ℝ

/-- `Point.add`: returns the computed clone. -/
def PointR.add (p q : PointR) : PointR := ⟨p.x + q.x, p.y + q.y⟩

/-- `Point.subtract`: returns the computed clone. -/
def PointR.subtract (p q : PointR) : PointR := ⟨p.x - q.x, p.y - q.y⟩

/-- `Point.divideBy`: returns the computed clone. -/
def PointR.divideBy (p : PointR) (num : ℝ) : PointR := ⟨p.x / num, p.y / num⟩

/-- `Point.round` rounds a clone (`target`) but returns `this`:
the receiver is returned unchanged. -/
def PointR.round (p : PointR) : PointR :=
  let _target : PointR := ⟨jsRoundR p.x, jsRoundR p.y⟩
  p

/-- The pixel-space `Bounds` variant used by the view code: the
constructor stores `min := topLeft`, `max := bottomRight` without
normalising. -/
structure BoundsR where
  min : PointR
  max : PointR

/-- `Bounds.getSize` = `max.subtract(min)`. -/
def BoundsR.getSize (b : BoundsR) : PointR := b.max.subtract b.min

/-- `LatLngBounds {southWest, northEast}`. -/
structure LatLngBoundsR where
  southWest : LatLngR
  northEast : LatLngR

/-- The `LatLngBounds` constructor: `Accessor` first aliases the two
corner options onto `this`, then the `extend` loop over `[sw, ne]`
mutates them in place; the net effect is that `southWest` keeps the
given south-west values while `northEast` is maxed with them. -/
def mkLatLngBounds (sw ne : LatLngR) : LatLngBoundsR :=
  ⟨sw, ⟨max sw.lat ne.lat, max sw.lng ne.lng⟩⟩

/-- `LatLngBounds.getNorthWest`. -/
def LatLngBoundsR.getNorthWest (b : LatLngBoundsR) : LatLngR :=
  ⟨b.northEast.lat, b.southWest.lng⟩

/-- `LatLngBounds.getSouthEast`. -/
def LatLngBoundsR.getSouthEast (b : LatLngBoundsR) : LatLngR :=
  ⟨b.southWest.lat, b.northEast.lng⟩

/-- `SphericalMercatorPrj.R`. -/
def sphMercR : ℝ := 6378137

/-- `SphericalMercatorPrj.MAX_LATITUDE`. -/
def maxLatitude : ℝ := 85.0511287798

/-- `SphericalMercatorPrj.project`: clamp the latitude to
`±MAX_LATITUDE`, then apply the spherical-mercator formulas. -/
def sphProject (ll : LatLngR) : PointR :=
  let d := Real.pi / 180
  let lat := max (min maxLatitude ll.lat) (-maxLatitude)
  let s := Real.sin (lat * d)
  ⟨sphMercR * ll.lng * d, sphMercR * Real.log ((1 + s) / (1 - s)) / 2⟩

/-- `SphericalMercatorPrj.unproject`. -/
def sphUnproject (p : PointR) : LatLngR :=
  let d := 180 / Real.pi
  ⟨(2 * Real.arctan (Real.exp (p.y / sphMercR)) - Real.pi / 2) * d,
   p.x * d / sphMercR⟩

/-- The affine `Transformation {a, b, c, d}`. -/
structure TransformationR where
  a : ℝ
  b : ℝ
  c : ℝ
  d : ℝ

/-- `Transformation.transform(point, scale)`; `scale = scale || 1`
replaces a zero scale by 1. -/
def TransformationR.transform (t : TransformationR) (p : PointR) (scale : ℝ) : PointR :=
  let s := if scale = 0 then 1 else scale
  ⟨s * (t.a * p.x + t.b), s * (t.c * p.y + t.d)⟩

/-- `Transformation.untransform(point, scale)`; `scale = scale || 1`
replaces a zero scale by 1. -/
def TransformationR.untransform (t : TransformationR) (p : PointR) (scale : ℝ) : PointR :=
  let s := if scale = 0 then 1 else scale
  ⟨(p.x / s - t.b) / t.a, (p.y / s - t.d) / t.c⟩

/-- Modelled from the spec: the CRS base class is absent from the
snapshot; the spec fixes `scale(zoom) = 2^zoom`. -/
def crsScale (z : ℝ) : ℝ := (2 : ℝ) ^ z

/-- Modelled from the spec: the EPSG3857 transformation coefficient.
With `scale(zoom) = 2^zoom` and the spec's 256-pixel world at zoom 0
(tileSize 256, world `x` span `[0, 256]` over mercator `x` in
`[-π·R, π·R]`), the affine map is `x ↦ a·x + 128`, `y ↦ -a·y + 128`
with `a = 128 / (π·R)`. -/
def epsgA : ℝ := 128 / (Real.pi * sphMercR)

/-- Modelled from the spec: the EPSG3857 transformation (see `epsgA`). -/
def epsg3857T : TransformationR := ⟨epsgA, 128, -epsgA, 128⟩

/-- Modelled from the spec:
`CRS.latLngToPoint(latlng, zoom) = transform(project(latlng), scale(zoom))`. -/
def latLngToPoint (ll : LatLngR) (z : ℝ) : PointR :=
  epsg3857T.transform (sphProject ll) (crsScale z)

/-- Modelled from the spec: `CRS.pointToLatLng` is the exact inverse
chain `unproject(untransform(point, scale(zoom)))`. -/
def pointToLatLng (p : PointR) (z : ℝ) : LatLngR :=
  sphUnproject (epsg3857T.untransform p (crsScale z))

/-- The map view state read by the `ℝ`-fragment methods: the
constructor-time `center` property, the container size, the current
zoom and the zoom options. -/
structure MapR where
  center : LatLngR
  sizeX : ℝ
  sizeY : ℝ
  zoom : ℝ
  minZoom : ℝ
  maxZoom : ℝ
  zoomSnap : ℝ
  any3d : Bool
  maxBounds : Option LatLngBoundsR

/-- `DMap._rebound(left, right)`. -/
def rebound (left right : ℝ) : ℝ :=
  if left + right > 0 then jsRoundR (left - right) / 2
  else max 0 (jsCeilR left) - max 0 (jsFloorR right)

/-- `DMap._getBoundsOffset(pxBounds, maxBounds, zoom)`: the projected
max-bounds stores `topLeft := project(getNorthEast())` and
`bottomRight := project(getSouthWest())` through the non-normalising
`Bounds` constructor. -/
def getBoundsOffsetR (pxBounds : BoundsR) (maxB : LatLngBoundsR) (z : ℝ) : PointR :=
  let projectedMaxBounds : BoundsR :=
    ⟨latLngToPoint maxB.northEast z, latLngToPoint maxB.southWest z⟩
  let minOffset := projectedMaxBounds.min.subtract pxBounds.min
  let maxOffset := projectedMaxBounds.max.subtract pxBounds.max
  ⟨rebound minOffset.x (-maxOffset.x), rebound minOffset.y (-maxOffset.y)⟩

/-- `DMap._limitCenter(center, zoom, bounds)`: the `offset.round()`
in the gate is the receiver-returning `Point.round`, and
`new Point()` is `(0, 0)`. -/
def limitCenterR (m : MapR) (center : LatLngR) (z : ℝ)
    (bounds : Option LatLngBoundsR) : LatLngR :=
  match bounds with
  | none => center
  | some b =>
      let centerPoint := latLngToPoint center z
      let viewHalf := PointR.divideBy ⟨m.sizeX, m.sizeY⟩ 2
      let viewBounds : BoundsR :=
        ⟨centerPoint.subtract viewHalf, centerPoint.add viewHalf⟩
      let offset := getBoundsOffsetR viewBounds b z
      if offset.round.x = 0 ∧ offset.round.y = 0 then center
      else pointToLatLng (centerPoint.add offset) z

/-- `DMap._limitZoom(zoom)`. -/
def limitZoomR (m : MapR) (z : ℝ) : ℝ :=
  let snap := if m.any3d then m.zoomSnap else 1
  let z1 := if snap = 0 then z else jsRoundR (z / snap) * snap
  max m.minZoom (min m.maxZoom z1)

/-- The center selected by `DMap.setView(center, zoom)` on the reset
path: the source computes
`center = this._limitCenter(this.center, zoom, this.options.maxBounds)`,
passing the constructor-time `this.center` property, not the `center`
argument. -/
def setViewCenterR (m : MapR) (center : LatLngR) (z : ℝ) : LatLngR :=
  limitCenterR m m.center (limitZoomR m z) m.maxBounds

/-- Modelled from the spec: the clamp `setView` is specified to apply —
shift the requested center `c` by the minimal per-axis pixel offset
that brings the projected viewport inside the projected `maxBounds` at
the target zoom.  The projected max-bounds rectangle is the normalised
one (componentwise min/max of the two projected corners). -/
def specLimitCenter (m : MapR) (center : LatLngR) (z : ℝ)
    (bounds : Option LatLngBoundsR) : LatLngR :=
  match bounds with
  | none => center
  | some b =>
      let centerPoint := latLngToPoint center z
      let viewHalf := PointR.divideBy ⟨m.sizeX, m.sizeY⟩ 2
      let viewBounds : BoundsR :=
        ⟨centerPoint.subtract viewHalf, centerPoint.add viewHalf⟩
      let pNE := latLngToPoint b.northEast z
      let pSW := latLngToPoint b.southWest z
      let pmb : BoundsR :=
        ⟨⟨min pNE.x pSW.x, min pNE.y pSW.y⟩, ⟨max pNE.x pSW.x, max pNE.y pSW.y⟩⟩
      let minOffset := pmb.min.subtract viewBounds.min
      let maxOffset := pmb.max.subtract viewBounds.max
      let offset : PointR :=
        ⟨rebound minOffset.x (-maxOffset.x), rebound minOffset.y (-maxOffset.y)⟩
      pointToLatLng (centerPoint.add offset) z

/-! ### `getBoundsZoom` with explicit IEEE special values

`getScaleZoom` feeds `crs.zoom(scale * crs.scale(fromZoom))` through
JS arithmetic: `Math.log` of a negative number is NaN (which
`getScaleZoom` turns into `Infinity`) and of zero is `-Infinity`; the
subsequent snap arithmetic and `Math.max/min` clamp propagate
infinities unchanged and propagate NaN.  The embedding represents
those special values explicitly. -/

/-- A JS number: finite, `Infinity`, `-Infinity` or `NaN`. -/
inductive JSx where
  | fin (x : ℝ)
  | pinf
  | ninf
  | nan

/-- Applies a real function to the finite case only; the JS operations
lifted this way (divide by a positive constant, `Math.round`,
`Math.floor`, `Math.ceil`, multiply by a positive constant) are the
identity on `±Infinity` and propagate `NaN`. -/
def JSx.mapFin (f : ℝ → ℝ) : JSx → JSx
  | .fin x => .fin (f x)
  | e => e

/-- Modelled from the spec: `CRS.zoom(scale) = log2(scale)`; JS
`Math.log` of a negative argument is NaN and of zero is `-Infinity`. -/
def crsZoomJS (scale : ℝ) : JSx :=
  if 0 < scale then .fin (Real.logb 2 scale)
  else if scale = 0 then .ninf else .nan

/-- `DMap.getScaleZoom(scale, fromZoom)`: `isNaN(zoom) ? Infinity : zoom`. -/
def getScaleZoomR (scale fromZoom : ℝ) : JSx :=
  match crsZoomJS (scale * crsScale fromZoom) with
  | .nan => .pinf
  | z => z

/-- The snap step of `getBoundsZoom` (`snap` truthy), lifted to JS
numbers: `Math.round(zoom / (snap/100)) * (snap/100)` then
`Math.floor(zoom / snap) * snap` (or `Math.ceil` when `inside`). -/
def snapStepR (snap : ℝ) (inside : Bool) (z : JSx) : JSx :=
  z.mapFin fun zz =>
    let z1 := jsRoundR (zz / (snap / 100)) * (snap / 100)
    if inside then jsCeilR (z1 / snap) * snap else jsFloorR (z1 / snap) * snap

/-- The final `Math.max(min, Math.min(max, zoom))` of `getBoundsZoom`
on a JS number: `Infinity` clamps to `Math.max(min, max)`,
`-Infinity` to `min`, and NaN propagates. -/
def clampZoomJS (mn mx : ℝ) : JSx → JSx
  | .fin x => .fin (max mn (min mx x))
  | .pinf => .fin (max mn mx)
  | .ninf => .fin mn
  | .nan => .nan

/-- `DMap.getBoundsZoom(bounds, inside, padding)`: `boundsSize` comes
from the non-normalising `Bounds` constructor over
`topLeft := project(getSouthEast())`, `bottomRight := project(getNorthWest())`. -/
def getBoundsZoomR (m : MapR) (bounds : LatLngBoundsR) (inside : Bool)
    (padding : PointR) : JSx :=
  let zoom0 := m.zoom
  let mn := m.minZoom
  let mx := m.maxZoom
  let nw := bounds.getNorthWest
  let se := bounds.getSouthEast
  let size := PointR.subtract ⟨m.sizeX, m.sizeY⟩ padding
  let boundsSize :=
    BoundsR.getSize ⟨latLngToPoint se zoom0, latLngToPoint nw zoom0⟩
  let snap := if m.any3d then m.zoomSnap else 1
  let scalex := size.x / boundsSize.x
  let scaley := size.y / boundsSize.y
  let scale := if inside then max scalex scaley else min scalex scaley
  let z1 := getScaleZoomR scale zoom0
  let z2 := if snap = 0 then z1 else snapStepR snap inside z1
  clampZoomJS mn mx z2

end

/-- A concrete map for exercising the `maxBounds` clamp of `setView`:
constructor-time center `(0°, 0°)`, a 100×100 container, zoom range
`[0, 18]`, `zoomSnap` 1, and `maxBounds` with south-west `(0°, 0°)` and
north-east `(0°, 45°)`. -/
def mapC1 : MapR :=
  { center := ⟨0, 0⟩, sizeX := 100, sizeY := 100, zoom := 0,
    minZoom := 0, maxZoom := 18, zoomSnap := 1, any3d := true,
    maxBounds := some (mkLatLngBounds ⟨0, 0⟩ ⟨0, 45⟩) }

/-- The `fitBounds` scenario map: a 512×512 container at zoom 0,
zoom range `[0, 18]`, `zoomSnap` 1. -/
def mapC7 : MapR :=
  { center := ⟨0, 0⟩, sizeX := 512, sizeY := 512, zoom := 0,
    minZoom := 0, maxZoom := 18, zoomSnap := 1, any3d := true,
    maxBounds := none }

/-! ## Theorems -/

/-- Claim C10: `Point.round` and `Point.trunc` return the receiver itself with
its coordinates unchanged (the rounded/truncated clone they build internally
is discarded), unlike `add`, `subtract`, `multiplyBy` and `divideBy`, which
return a fresh componentwise-computed point; consequently, on a point with
non-integer coordinates, the value returned by `round`/`trunc` does not have
integer coordinates. -/
theorem point_round_trunc_return_receiver (p q : PointQ) (num : ℚ)
    (h : ¬ intCoords p) :
    p.round = p ∧ p.trunc = p ∧
    p.add q = ⟨p.x + q.x, p.y + q.y⟩ ∧
    p.subtract q = ⟨p.x - q.x, p.y - q.y⟩ ∧
    p.multiplyBy num = ⟨p.x * num, p.y * num⟩ ∧
    p.divideBy num = ⟨p.x / num, p.y / num⟩ ∧
    ¬ intCoords p.round ∧ ¬ intCoords p.trunc := by
  refine ⟨rfl, rfl, rfl, rfl, rfl, rfl, ?_, ?_⟩ <;>
    simpa [PointQ.round, PointQ.trunc] using h

/-- Witness for C10 at the concrete point (1/2, 1/2). -/
theorem point_round_trunc_return_receiver_witness :
    ¬ intCoords (⟨1/2, 1/2⟩ : PointQ) ∧
    ((⟨1/2, 1/2⟩ : PointQ).round = ⟨1/2, 1/2⟩ ∧
     (⟨1/2, 1/2⟩ : PointQ).trunc = ⟨1/2, 1/2⟩ ∧
     (⟨1/2, 1/2⟩ : PointQ).add ⟨1, 2⟩ = ⟨1/2 + 1, 1/2 + 2⟩ ∧
     (⟨1/2, 1/2⟩ : PointQ).subtract ⟨1, 2⟩ = ⟨1/2 - 1, 1/2 - 2⟩ ∧
     (⟨1/2, 1/2⟩ : PointQ).multiplyBy 3 = ⟨1/2 * 3, 1/2 * 3⟩ ∧
     (⟨1/2, 1/2⟩ : PointQ).divideBy 3 = ⟨1/2 / 3, 1/2 / 3⟩ ∧
     ¬ intCoords (⟨1/2, 1/2⟩ : PointQ).round ∧
     ¬ intCoords (⟨1/2, 1/2⟩ : PointQ).trunc) :=
  ⟨by norm_num [intCoords, intCoord],
   point_round_trunc_return_receiver ⟨1/2, 1/2⟩ ⟨1, 2⟩ 3
     (by norm_num [intCoords, intCoord])⟩

/-- Claim C9 (amended): a pixel-space `Bounds` satisfies `min ≤ max`
componentwise when constructed from two corners given in componentwise
(min, max) order — directly or as the first `extend` of an empty bounds —
and `extend` preserves the invariant for arbitrary further corner
arguments; the constructor stores the corners as given, without
normalising their order. -/
theorem bounds_min_le_max (p q r s : PointQ) (b : BoundsQ)
    (hx : p.x ≤ q.x) (hy : p.y ≤ q.y) (hb : boundsOrdered b) :
    boundsOrdered (BoundsQ.ofCorners p q) ∧
    boundsOrdered (BoundsQ.extendFrom none p q) ∧
    boundsOrdered (BoundsQ.extendFrom (some b) r s) := by
  refine ⟨⟨hx, hy⟩, ⟨hx, hy⟩, ?_, ?_⟩
  · exact le_trans (min_le_right _ _) (le_trans hb.1 (le_max_right _ _))
  · exact le_trans (min_le_right _ _) (le_trans hb.2 (le_max_right _ _))

/-- Witness for C9 at concrete corners and a concrete valid bounds. -/
theorem bounds_min_le_max_witness :
    ((1 : ℚ) ≤ 3 ∧ (2 : ℚ) ≤ 7 ∧
      boundsOrdered (BoundsQ.ofCorners ⟨0, 0⟩ ⟨5, 5⟩)) ∧
    (boundsOrdered (BoundsQ.ofCorners ⟨1, 2⟩ ⟨3, 7⟩) ∧
     boundsOrdered (BoundsQ.extendFrom none ⟨1, 2⟩ ⟨3, 7⟩) ∧
     boundsOrdered (BoundsQ.extendFrom (some (BoundsQ.ofCorners ⟨0, 0⟩ ⟨5, 5⟩))
        ⟨-4, 9⟩ ⟨2, -3⟩)) :=
  ⟨⟨by decide, by decide, by decide⟩,
    bounds_min_le_max ⟨1, 2⟩ ⟨3, 7⟩ ⟨-4, 9⟩ ⟨2, -3⟩ (BoundsQ.ofCorners ⟨0, 0⟩ ⟨5, 5⟩)
      (by decide) (by decide) (by decide)⟩

/-- Claim C9 counterexample: the `Bounds` constructor stores the two corner
points exactly as given, so a bounds constructed from corners in the wrong
order is valid (both corners present) yet violates `min ≤ max`. -/
theorem bounds_ofCorners_not_ordered :
    ¬ boundsOrdered (BoundsQ.ofCorners ⟨40, 60⟩ ⟨10, 10⟩) := by decide

/-- At tile zoom 1 the wrap range for x is [0, 2): wrapping sends tile
column 2 back to column 0. -/
lemma wrapNum_two_zero_two : wrapNum 2 0 2 = 0 := by
  norm_num [wrapNum, jsMod, jsTrunc]

/-- Wrapping the enumeration coordinate (2,0,1) with x-range [0, 2) gives
the rendered coordinate (0,0,1). -/
lemma wrapCoords_two : wrapCoords ⟨some (0, 2), none⟩ ⟨2, 0, 1⟩ = ⟨0, 0, 1⟩ := by
  simp [wrapCoords, wrapNum_two_zero_two]

/-- Claim C6 (amended): the cache key of a newly added tile uses the
unwrapped enumeration coordinate — not the wrapped one — while the wrapped
coordinate is what is handed to `createTile`, and the on-screen position is
computed from the unwrapped coordinate.  At tile zoom 1 with wrap range
[0, 2), the enumeration coordinate (2,0,1) is stored under key "2:0:1"
while `createTile` receives the wrapped coordinate (0,0,1). -/
theorem addTile_key_is_unwrapped (st : WrapState) (tileSize origin : PointQ)
    (c : TCoord) :
    (addTile st tileSize origin c).key = tileCoordsToKey c ∧
    (addTile st tileSize origin c).createTileArg = wrapCoords st c ∧
    (addTile st tileSize origin c).pos = getTilePos c tileSize origin ∧
    (addTile ⟨some (0, 2), none⟩ ⟨256, 256⟩ ⟨0, 0⟩ ⟨2, 0, 1⟩).key = "2:0:1" ∧
    (addTile ⟨some (0, 2), none⟩ ⟨256, 256⟩ ⟨0, 0⟩ ⟨2, 0, 1⟩).createTileArg
      = ⟨0, 0, 1⟩ ∧
    tileCoordsToKey ⟨0, 0, 1⟩ = "0:0:1" :=
  ⟨rfl, rfl, rfl, by decide, wrapCoords_two, by decide⟩

/-- Claim C6 counterexample: with the longitude wrap range [0, 2) at tile
zoom 1 (a wrapping CRS, `noWrap` unset), the tile added for enumeration
coordinate (2,0,1) is stored under the key of the unwrapped coordinate,
which differs from the key of the wrapped coordinate handed to
`createTile` — refuting the claim that the cache key uses the wrapped
coordinate. -/
theorem addTile_key_not_wrapped_key :
    (addTile ⟨some (0, 2), none⟩ ⟨256, 256⟩ ⟨0, 0⟩ ⟨2, 0, 1⟩).key
      ≠ tileCoordsToKey
          ((addTile ⟨some (0, 2), none⟩ ⟨256, 256⟩ ⟨0, 0⟩ ⟨2, 0, 1⟩).createTileArg) := by
  have h : (addTile ⟨some (0, 2), none⟩ ⟨256, 256⟩ ⟨0, 0⟩
      ⟨2, 0, 1⟩).createTileArg = ⟨0, 0, 1⟩ := wrapCoords_two
  rw [h]
  decide

/-- Claim C4: the tile-grid update throws exactly when the computed tile
range has a non-finite bound, and the throw happens before any cached
tile's `current` flag or the tile cache is mutated: on error the cache is
returned unchanged and no tile load is queued. -/
theorem glUpdate_throws_iff_nonfinite (tiles : TileCache) (tz zoom : ℚ)
    (range : RangeJS) (margin : ℚ) (isValid : TCoord → Bool) :
    ((glUpdate tiles tz zoom range margin isValid).err.isSome
        ↔ rangeFinite range = false)
    ∧ (rangeFinite range = false →
        glUpdate tiles tz zoom range margin isValid
          = ⟨some infiniteTilesMsg, tiles, [], false⟩) := by
  rcases range with ⟨mx, my, Mx, My⟩
  cases mx <;> cases my <;> cases Mx <;> cases My <;>
    simp [glUpdate, rangeFinite] <;>
    split <;> simp

/-- Witness for C4: a tile range with a non-finite x lower bound throws
and leaves a (nonempty) cache untouched. -/
theorem glUpdate_throws_iff_nonfinite_witness :
    rangeFinite ⟨none, some 0, some 1, some 1⟩ = false ∧
    glUpdate [(⟨0, 0, 0⟩, ⟨⟨0, 0, 0⟩, true, true, true, false⟩)] 0 0
        ⟨none, some 0, some 1, some 1⟩ 2 (fun _ => true)
      = ⟨some infiniteTilesMsg,
          [(⟨0, 0, 0⟩, ⟨⟨0, 0, 0⟩, true, true, true, false⟩)], [], false⟩ :=
  ⟨rfl,
    (glUpdate_throws_iff_nonfinite
      [(⟨0, 0, 0⟩, ⟨⟨0, 0, 0⟩, true, true, true, false⟩)] 0 0
      ⟨none, some 0, some 1, some 1⟩ 2 (fun _ => true)).2 rfl⟩

/-- Claim C3: at tile zoom 0 with freshly computed tile range
(0,0)–(1,1) and keep-buffer margin 2, the coordinate (0,0,0) is at the
active tile zoom and inside the keep-buffer-padded range as the spec
describes it, yet the marking step of `_update` marks it non-current:
the `noPruneRange` built from `getBottomLeft`/`getTopRight` through the
non-normalising `Bounds` constructor has an inverted, empty y-interval
(`min.y > max.y`), so its `contains` test rejects every coordinate. -/
theorem updateMark_kills_in_range_tile :
    markNonCurrent 0 (noPruneRange (BoundsQ.ofCorners ⟨0, 0⟩ ⟨1, 1⟩) 2) ⟨0, 0, 0⟩
        = true ∧
    (specPaddedRange (BoundsQ.ofCorners ⟨0, 0⟩ ⟨1, 1⟩) 2).containsPoint ⟨0, 0⟩
        = true ∧
    ((0 : ℚ), (0 : ℚ), (0 : ℚ)) = (TCoord.mk 0 0 0 |>.x, TCoord.mk 0 0 0 |>.y,
        TCoord.mk 0 0 0 |>.z) ∧
    (noPruneRange (BoundsQ.ofCorners ⟨0, 0⟩ ⟨1, 1⟩) 2).min.y
        > (noPruneRange (BoundsQ.ofCorners ⟨0, 0⟩ ⟨1, 1⟩) 2).max.y ∧
    updateMark [(⟨0, 0, 0⟩, ⟨⟨0, 0, 0⟩, true, true, false, false⟩)] 0
        (noPruneRange (BoundsQ.ofCorners ⟨0, 0⟩ ⟨1, 1⟩) 2)
      = [(⟨0, 0, 0⟩, ⟨⟨0, 0, 0⟩, false, true, false, false⟩)] := by
  refine ⟨?_, ?_, rfl, ?_, ?_⟩ <;>
    norm_num [markNonCurrent, noPruneRange, specPaddedRange, updateMark,
      BoundsQ.containsPoint, BoundsQ.ofCorners, BoundsQ.getBottomLeft,
      BoundsQ.getTopRight, PointQ.subtract, PointQ.add, PointQ.clone]

/-- Claim C2: on the non-animated reset path with an (effectively) changed
zoom and default options, `setView` fires exactly one `zoomstart`, one
`movestart`, one `zoomend` and one `moveend`, in that relative order, with
the intermediate `zoom`/`move` events in between; `moveend` is the
terminal event among these kinds. -/
theorem setView_reset_event_order (m : MapVStateQ) (z : ℚ)
    (hz : m.zoom ≠ limitZoom m (limitZoom m z)) :
    (setViewResetEvents m z false).filter isCoreEv
        = [MapEv.zoomstart, MapEv.movestart, MapEv.zoom, MapEv.move,
           MapEv.zoomend, MapEv.moveend] ∧
    ((setViewResetEvents m z false).filter isCoreEv).count MapEv.zoomstart = 1 ∧
    ((setViewResetEvents m z false).filter isCoreEv).count MapEv.movestart = 1 ∧
    ((setViewResetEvents m z false).filter isCoreEv).count MapEv.zoomend = 1 ∧
    ((setViewResetEvents m z false).filter isCoreEv).count MapEv.moveend = 1 ∧
    ((setViewResetEvents m z false).filter isCoreEv).getLast? = some MapEv.moveend := by
  have h : (setViewResetEvents m z false).filter isCoreEv
      = [MapEv.zoomstart, MapEv.movestart, MapEv.zoom, MapEv.move,
         MapEv.zoomend, MapEv.moveend] := by
    simp [setViewResetEvents, resetViewEvents, moveStartEvents, moveEvents,
      moveEndEvents, isCoreEv, hz]
  rw [h]
  refine ⟨rfl, ?_, ?_, ?_, ?_, ?_⟩ <;> decide

/-- Witness for C2: current zoom 0, requested zoom 1, default limits. -/
theorem setView_reset_event_order_witness :
    ((⟨0, 0, 18, 1, true, true⟩ : MapVStateQ).zoom
        ≠ limitZoom ⟨0, 0, 18, 1, true, true⟩
            (limitZoom ⟨0, 0, 18, 1, true, true⟩ 1)) ∧
    ((setViewResetEvents ⟨0, 0, 18, 1, true, true⟩ 1 false).filter isCoreEv
        = [MapEv.zoomstart, MapEv.movestart, MapEv.zoom, MapEv.move,
           MapEv.zoomend, MapEv.moveend] ∧
     ((setViewResetEvents ⟨0, 0, 18, 1, true, true⟩ 1 false).filter
        isCoreEv).count MapEv.zoomstart = 1 ∧
     ((setViewResetEvents ⟨0, 0, 18, 1, true, true⟩ 1 false).filter
        isCoreEv).count MapEv.movestart = 1 ∧
     ((setViewResetEvents ⟨0, 0, 18, 1, true, true⟩ 1 false).filter
        isCoreEv).count MapEv.zoomend = 1 ∧
     ((setViewResetEvents ⟨0, 0, 18, 1, true, true⟩ 1 false).filter
        isCoreEv).count MapEv.moveend = 1 ∧
     ((setViewResetEvents ⟨0, 0, 18, 1, true, true⟩ 1 false).filter
        isCoreEv).getLast? = some MapEv.moveend) :=
  ⟨by norm_num [limitZoom, jsRound],
   setView_reset_event_order ⟨0, 0, 18, 1, true, true⟩ 1
     (by norm_num [limitZoom, jsRound])⟩

lemma lookupTile_map_val (g : TCoord → Tile → Tile) (k : TCoord) :
    ∀ ts : TileCache,
      lookupTile k (ts.map fun e => (e.1, g e.1 e.2)) = (lookupTile k ts).map (g k)
  | [] => rfl
  | (k', t) :: rest => by
      by_cases h : k' = k
      · subst h; simp [lookupTile]
      · simp [lookupTile, h, lookupTile_map_val g k rest]

lemma lookupTile_applyMarks (l : List TCoord) (k : TCoord) (ts : TileCache) :
    lookupTile k (applyMarks l ts)
      = (lookupTile k ts).map fun t => if k ∈ l then { t with retain := true } else t := by
  unfold applyMarks
  exact lookupTile_map_val (fun k t => if k ∈ l then { t with retain := true } else t) k ts

lemma bview_applyMarks (l : List TCoord) (ts : TileCache) :
    bview (applyMarks l ts) = bview ts := by
  funext c
  simp only [bview, lookupTile_applyMarks]
  cases lookupTile c ts with
  | none => rfl
  | some t => by_cases h : c ∈ l <;> simp [h]

lemma applyMarks_nil (ts : TileCache) : applyMarks [] ts = ts := by
  simp [applyMarks]

lemma markRetain_eq (k : TCoord) (ts : TileCache) :
    markRetain k ts = applyMarks [k] ts := by
  unfold markRetain applyMarks
  refine List.map_congr_left fun e _ => ?_
  by_cases h : e.1 = k <;> simp [h]

lemma applyMarks_applyMarks (l1 l2 : List TCoord) (ts : TileCache) :
    applyMarks l1 (applyMarks l2 ts) = applyMarks (l1 ++ l2) ts := by
  unfold applyMarks
  rw [List.map_map]
  refine List.map_congr_left fun e _ => ?_
  by_cases h1 : e.1 ∈ l1 <;> by_cases h2 : e.1 ∈ l2 <;>
    simp [Function.comp, h1, h2]

lemma applyMarks_congr (l1 l2 : List TCoord) (ts : TileCache)
    (h : ∀ k, k ∈ l1 ↔ k ∈ l2) :
    applyMarks l1 ts = applyMarks l2 ts := by
  unfold applyMarks
  refine List.map_congr_left fun e _ => ?_
  by_cases h1 : e.1 ∈ l1
  · rw [if_pos h1, if_pos ((h e.1).mp h1)]
  · rw [if_neg h1, if_neg (fun hc => h1 ((h e.1).mpr hc))]

lemma measure_drop {z minZ : ℚ} {n : ℕ} (hg : minZ < z - 1)
    (hn : (⌈z - minZ⌉).toNat ≤ n + 1) : (⌈z - 1 - minZ⌉).toNat ≤ n := by
  have h3 : (1 : ℤ) < ⌈z - minZ⌉ := Int.lt_ceil.mpr (by push_cast; linarith)
  have h4 : (⌈z - 1 - minZ⌉ : ℤ) = ⌈z - minZ⌉ - 1 := by
    rw [show z - 1 - minZ = (z - minZ) - 1 by ring, Int.ceil_sub_one]
  omega

lemma guard_false_of_measure_zero {z minZ : ℚ}
    (hn : (⌈z - minZ⌉).toNat ≤ 0) : ¬ minZ < z - 1 := by
  intro hg
  have h3 : (1 : ℤ) < ⌈z - minZ⌉ := Int.lt_ceil.mpr (by push_cast; linarith)
  omega

lemma retainParent_spec (minZ : ℚ) (n : ℕ) :
    ∀ (ts : TileCache) (x y z : ℚ), (⌈z - minZ⌉).toNat ≤ n →
      retainParent ts x y z minZ
        = (applyMarks (pMarks (bview ts) x y z minZ).1 ts,
           (pMarks (bview ts) x y z minZ).2) := by
  induction n with
  | zero =>
      intro ts x y z hn
      have hg := guard_false_of_measure_zero hn
      rw [retainParent, pMarks]
      cases hlook : lookupTile (parentCoords x y z) ts with
      | none => simp [bview, hlook, hg, applyMarks_nil]
      | some t =>
          by_cases ha : t.active
          · simp [bview, hlook, ha, markRetain_eq]
          · by_cases hld : t.loaded <;>
              simp [bview, hlook, ha, hld, hg, markRetain_eq, applyMarks_nil]
  | succ n ih =>
      intro ts x y z hn
      rw [retainParent, pMarks]
      cases hlook : lookupTile (parentCoords x y z) ts with
      | none =>
          by_cases hg : minZ < z - 1
          · have hrec := ih ts (parentCoords x y z).x (parentCoords x y z).y (z - 1)
              (measure_drop hg hn)
            simp only [bview, hlook, hg, if_true]
            rw [hrec]
            simp [bview]
          · simp [bview, hlook, hg, applyMarks_nil]
      | some t =>
          by_cases ha : t.active
          · simp [bview, hlook, ha, markRetain_eq]
          · by_cases hg : minZ < z - 1
            · by_cases hld : t.loaded
              · have hrec := ih (markRetain (parentCoords x y z) ts)
                  (parentCoords x y z).x (parentCoords x y z).y (z - 1)
                  (measure_drop hg hn)
                simp only [bview, hlook, ha, hld, hg, if_true, if_false,
                  Bool.false_eq_true]
                rw [hrec, markRetain_eq, bview_applyMarks, applyMarks_applyMarks]
                refine Prod.ext ?_ rfl
                exact applyMarks_congr _ _ _ fun k => by simp [or_comm]
              · have hrec := ih ts
                  (parentCoords x y z).x (parentCoords x y z).y (z - 1)
                  (measure_drop hg hn)
                simp only [bview, hlook, ha, hld, hg, if_true, if_false,
                  Bool.false_eq_true]
                rw [hrec]
                simp
            · by_cases hld : t.loaded <;>
                simp [bview, hlook, ha, hld, hg, markRetain_eq, applyMarks_nil]

lemma cmeasure_drop {z maxZ : ℚ} {n : ℕ} (hg : z + 1 < maxZ)
    (hn : (⌈maxZ - z⌉).toNat ≤ n + 1) : (⌈maxZ - (z + 1)⌉).toNat ≤ n := by
  have h3 : (1 : ℤ) < ⌈maxZ - z⌉ := Int.lt_ceil.mpr (by push_cast; linarith)
  have h4 : (⌈maxZ - (z + 1)⌉ : ℤ) = ⌈maxZ - z⌉ - 1 := by
    rw [show maxZ - (z + 1) = (maxZ - z) - 1 by ring, Int.ceil_sub_one]
  omega

lemma cguard_false_of_measure_zero {z maxZ : ℚ}
    (hn : (⌈maxZ - z⌉).toNat ≤ 0) : ¬ z + 1 < maxZ := by
  intro hg
  have h3 : (1 : ℤ) < ⌈maxZ - z⌉ := Int.lt_ceil.mpr (by push_cast; linarith)
  omega

/-- Composition step: the four-child loop of `_retainChildren`, given the
per-child spec at this level. -/
lemma rc_comp (maxZ z : ℚ)
    (hcv : ∀ (ts : TileCache) (i j : ℚ),
      childVisit ts i j z maxZ = applyMarks (cVisitMarks (bview ts) i j z maxZ) ts)
    (ts : TileCache) (x y : ℚ) :
    retainChildren ts x y z maxZ = applyMarks (cMarks (bview ts) x y z maxZ) ts := by
  rw [retainChildren, cMarks]
  simp only [hcv, bview_applyMarks, applyMarks_applyMarks]
  exact applyMarks_congr _ _ _ fun k => by simp [List.mem_append]; tauto

/-- Joint spec of `childVisit` and `retainChildren`: both only mark the
keys computed by their pure mark functions from the activity view. -/
lemma children_spec (maxZ : ℚ) (n : ℕ) :
    (∀ (ts : TileCache) (i j z : ℚ), (⌈maxZ - z⌉).toNat ≤ n →
      childVisit ts i j z maxZ = applyMarks (cVisitMarks (bview ts) i j z maxZ) ts)
    ∧ (∀ (ts : TileCache) (x y z : ℚ), (⌈maxZ - z⌉).toNat ≤ n →
      retainChildren ts x y z maxZ = applyMarks (cMarks (bview ts) x y z maxZ) ts) := by
  induction n with
  | zero =>
      have hcv : ∀ (ts : TileCache) (i j z : ℚ), (⌈maxZ - z⌉).toNat ≤ 0 →
          childVisit ts i j z maxZ
            = applyMarks (cVisitMarks (bview ts) i j z maxZ) ts := by
        intro ts i j z hn
        have hg := cguard_false_of_measure_zero hn
        rw [childVisit, cVisitMarks]
        cases hlook : lookupTile ⟨i, j, z + 1⟩ ts with
        | none => simp [bview, hlook, hg, applyMarks_nil]
        | some t =>
            by_cases ha : t.active
            · simp [bview, hlook, ha, markRetain_eq]
            · by_cases hld : t.loaded <;>
                simp [bview, hlook, ha, hld, hg, markRetain_eq, applyMarks_nil]
      exact ⟨hcv, fun ts x y z hn => rc_comp maxZ z (fun ts' i j => hcv ts' i j z hn) ts x y⟩
  | succ n ih =>
      have hcv : ∀ (ts : TileCache) (i j z : ℚ), (⌈maxZ - z⌉).toNat ≤ n + 1 →
          childVisit ts i j z maxZ
            = applyMarks (cVisitMarks (bview ts) i j z maxZ) ts := by
        intro ts i j z hn
        rw [childVisit, cVisitMarks]
        cases hlook : lookupTile ⟨i, j, z + 1⟩ ts with
        | none =>
            by_cases hg : z + 1 < maxZ
            · have hrc := ih.2 ts i j (z + 1) (cmeasure_drop hg hn)
              simp only [bview, hlook, hg, if_true]
              rw [hrc]
              simp [bview]
            · simp [bview, hlook, hg, applyMarks_nil]
        | some t =>
            by_cases ha : t.active
            · simp [bview, hlook, ha, markRetain_eq]
            · by_cases hg : z + 1 < maxZ
              · by_cases hld : t.loaded
                · have hrc := ih.2 (markRetain ⟨i, j, z + 1⟩ ts) i j (z + 1)
                    (cmeasure_drop hg hn)
                  simp only [bview, hlook, ha, hld, hg, if_true, if_false,
                    Bool.false_eq_true]
                  rw [hrc, markRetain_eq, bview_applyMarks, applyMarks_applyMarks]
                  exact applyMarks_congr _ _ _ fun k => by simp [or_comm]
                · have hrc := ih.2 ts i j (z + 1) (cmeasure_drop hg hn)
                  simp only [bview, hlook, ha, hld, hg, if_true, if_false,
                    Bool.false_eq_true]
                  rw [hrc]
                  simp
              · by_cases hld : t.loaded <;>
                  simp [bview, hlook, ha, hld, hg, markRetain_eq, applyMarks_nil]
      exact ⟨hcv, fun ts x y z hn => rc_comp maxZ z (fun ts' i j => hcv ts' i j z hn) ts x y⟩

/-- The spec of `_retainChildren`, for any cache and coordinates. -/
lemma retainChildren_spec (ts : TileCache) (x y z maxZ : ℚ) :
    retainChildren ts x y z maxZ = applyMarks (cMarks (bview ts) x y z maxZ) ts :=
  (children_spec maxZ (⌈maxZ - z⌉).toNat).2 ts x y z le_rfl

/-- The spec of `_retainParent`, for any cache and coordinates. -/
lemma retainParent_specAll (ts : TileCache) (x y z minZ : ℚ) :
    retainParent ts x y z minZ
      = (applyMarks (pMarks (bview ts) x y z minZ).1 ts,
         (pMarks (bview ts) x y z minZ).2) :=
  retainParent_spec minZ (⌈z - minZ⌉).toNat ts x y z le_rfl

/-- One walker step only marks the keys of `walkMarks`. -/
lemma pruneWalk_spec (ts : TileCache) (c : TCoord) :
    pruneWalk ts c = applyMarks (walkMarks (bview ts) c) ts := by
  rw [pruneWalk, walkMarks, retainParent_specAll]
  by_cases hf : (pMarks (bview ts) c.x c.y c.z (c.z - 5)).2 = true
  · simp [hf]
  · simp only [hf, Bool.false_eq_true, if_false]
    rw [retainChildren_spec, bview_applyMarks, applyMarks_applyMarks]
    exact applyMarks_congr _ _ _ fun k => by simp [List.mem_append]; tauto

lemma bview_pruneWalk (ts : TileCache) (c : TCoord) :
    bview (pruneWalk ts c) = bview ts := by
  rw [pruneWalk_spec, bview_applyMarks]

/-- The walker loop only marks the keys of `allMarks`. -/
lemma foldl_pruneWalk_spec :
    ∀ (ws : List TCoord) (ts : TileCache),
      ws.foldl pruneWalk ts = applyMarks (allMarks (bview ts) ws) ts
  | [], ts => by simp [allMarks, applyMarks_nil]
  | w :: ws, ts => by
      simp only [List.foldl_cons, allMarks]
      rw [foldl_pruneWalk_spec ws (pruneWalk ts w), bview_pruneWalk, pruneWalk_spec,
        applyMarks_applyMarks]
      exact applyMarks_congr _ _ _ fun k => by simp [List.mem_append]; tauto

lemma mem_allMarks (v : TCoord → Bool × Bool) (k : TCoord) :
    ∀ ws : List TCoord, k ∈ allMarks v ws ↔ ∃ w ∈ ws, k ∈ walkMarks v w
  | [] => by simp [allMarks]
  | w :: ws => by
      simp [allMarks, List.mem_append, mem_allMarks v k ws]

/-- The parent walk only marks keys whose view is active or loaded. -/
lemma pMarks_mem (minZ : ℚ) (n : ℕ) :
    ∀ (v : TCoord → Bool × Bool) (x y z : ℚ), (⌈z - minZ⌉).toNat ≤ n →
      ∀ k ∈ (pMarks v x y z minZ).1, (v k).1 = true ∨ (v k).2 = true := by
  induction n with
  | zero =>
      intro v x y z hn k hk
      have hg := guard_false_of_measure_zero hn
      rw [pMarks] at hk
      by_cases h1 : (v (parentCoords x y z)).1 = true
      · simp only [h1, if_true] at hk
        simp at hk
        subst hk; exact Or.inl h1
      · by_cases h2 : (v (parentCoords x y z)).2 = true <;>
          simp only [h1, h2, Bool.false_eq_true, if_true, if_false, hg] at hk <;>
          simp at hk
        subst hk; exact Or.inr h2
  | succ n ih =>
      intro v x y z hn k hk
      rw [pMarks] at hk
      by_cases h1 : (v (parentCoords x y z)).1 = true
      · simp only [h1, if_true] at hk
        simp at hk
        subst hk; exact Or.inl h1
      · by_cases hg : minZ < z - 1
        · simp only [h1, Bool.false_eq_true, if_false, hg, if_true,
            List.mem_append] at hk
          rcases hk with hk | hk
          · by_cases h2 : (v (parentCoords x y z)).2 = true <;>
              simp only [h2, Bool.false_eq_true, if_true, if_false] at hk <;>
              simp at hk
            subst hk; exact Or.inr h2
          · exact ih v (parentCoords x y z).x (parentCoords x y z).y (z - 1)
              (measure_drop hg hn) k hk
        · by_cases h2 : (v (parentCoords x y z)).2 = true <;>
            simp only [h1, h2, Bool.false_eq_true, if_true, if_false, hg] at hk <;>
            simp at hk
          subst hk; exact Or.inr h2

/-- The children walk only marks keys whose view is active or loaded. -/
lemma cmarks_mem (maxZ : ℚ) (n : ℕ) :
    (∀ (v : TCoord → Bool × Bool) (i j z : ℚ), (⌈maxZ - z⌉).toNat ≤ n →
      ∀ k ∈ cVisitMarks v i j z maxZ, (v k).1 = true ∨ (v k).2 = true)
    ∧ (∀ (v : TCoord → Bool × Bool) (x y z : ℚ), (⌈maxZ - z⌉).toNat ≤ n →
      ∀ k ∈ cMarks v x y z maxZ, (v k).1 = true ∨ (v k).2 = true) := by
  induction n with
  | zero =>
      have hcv : ∀ (v : TCoord → Bool × Bool) (i j z : ℚ), (⌈maxZ - z⌉).toNat ≤ 0 →
          ∀ k ∈ cVisitMarks v i j z maxZ, (v k).1 = true ∨ (v k).2 = true := by
        intro v i j z hn k hk
        have hg := cguard_false_of_measure_zero hn
        rw [cVisitMarks] at hk
        by_cases h1 : (v ⟨i, j, z + 1⟩).1 = true
        · simp only [h1, if_true] at hk
          simp at hk
          subst hk; exact Or.inl h1
        · by_cases h2 : (v ⟨i, j, z + 1⟩).2 = true <;>
            simp only [h1, h2, Bool.false_eq_true, if_true, if_false, hg,
              List.append_nil] at hk <;>
            simp at hk
          subst hk; exact Or.inr h2
      refine ⟨hcv, ?_⟩
      intro v x y z hn k hk
      rw [cMarks] at hk
      simp only [List.mem_append] at hk
      rcases hk with ((hk | hk) | hk) | hk <;>
        exact hcv v _ _ z hn k hk
  | succ n ih =>
      have hcv : ∀ (v : TCoord → Bool × Bool) (i j z : ℚ), (⌈maxZ - z⌉).toNat ≤ n + 1 →
          ∀ k ∈ cVisitMarks v i j z maxZ, (v k).1 = true ∨ (v k).2 = true := by
        intro v i j z hn k hk
        rw [cVisitMarks] at hk
        by_cases h1 : (v ⟨i, j, z + 1⟩).1 = true
        · simp only [h1, if_true] at hk
          simp at hk
          subst hk; exact Or.inl h1
        · by_cases hg : z + 1 < maxZ
          · simp only [h1, Bool.false_eq_true, if_false, hg, if_true,
              List.mem_append] at hk
            rcases hk with hk | hk
            · by_cases h2 : (v ⟨i, j, z + 1⟩).2 = true <;>
                simp only [h2, Bool.false_eq_true, if_true, if_false] at hk <;>
                simp at hk
              subst hk; exact Or.inr h2
            · exact ih.2 v i j (z + 1) (cmeasure_drop hg hn) k hk
          · by_cases h2 : (v ⟨i, j, z + 1⟩).2 = true <;>
              simp only [h1, h2, Bool.false_eq_true, if_true, if_false, hg,
                List.append_nil] at hk <;>
              simp at hk
            subst hk; exact Or.inr h2
      refine ⟨hcv, ?_⟩
      intro v x y z hn k hk
      rw [cMarks] at hk
      simp only [List.mem_append] at hk
      rcases hk with ((hk | hk) | hk) | hk <;>
        exact hcv v _ _ z hn k hk

/-- A walker step only marks keys whose view is active or loaded. -/
lemma walkMarks_mem (v : TCoord → Bool × Bool) (c : TCoord) (k : TCoord)
    (hk : k ∈ walkMarks v c) : (v k).1 = true ∨ (v k).2 = true := by
  rw [walkMarks] at hk
  by_cases hf : (pMarks v c.x c.y c.z (c.z - 5)).2 = true
  · simp only [hf, if_true] at hk
    exact pMarks_mem (c.z - 5) (⌈c.z - (c.z - 5)⌉).toNat v c.x c.y c.z le_rfl k hk
  · simp only [hf, Bool.false_eq_true, if_false, List.mem_append] at hk
    rcases hk with hk | hk
    · exact pMarks_mem (c.z - 5) (⌈c.z - (c.z - 5)⌉).toNat v c.x c.y c.z le_rfl k hk
    · exact (cmarks_mem (c.z + 2) (⌈c.z + 2 - c.z⌉).toNat).2 v c.x c.y c.z le_rfl k hk

/-- The parent walk behaves identically under two views that agree on all
keys it marks and turn no inert key live. -/
lemma pMarks_congr (minZ : ℚ) (n : ℕ) :
    ∀ (v1 v2 : TCoord → Bool × Bool) (x y z : ℚ), (⌈z - minZ⌉).toNat ≤ n →
      (∀ k ∈ (pMarks v1 x y z minZ).1, v2 k = v1 k) →
      (∀ k, v1 k = (false, false) → v2 k = v1 k) →
      pMarks v2 x y z minZ = pMarks v1 x y z minZ := by
  induction n with
  | zero =>
      intro v1 v2 x y z hn H H2
      have hg := guard_false_of_measure_zero hn
      rcases hva : v1 (parentCoords x y z) with ⟨a, l⟩
      cases a
      · cases l
        · have hv2 := H2 _ hva
          rw [pMarks]; conv_rhs => rw [pMarks]
          simp [hva, hv2, hg]
        · have hc2m : parentCoords x y z ∈ (pMarks v1 x y z minZ).1 := by
            rw [pMarks]; simp [hva, hg]
          have hv2 := H _ hc2m
          rw [pMarks]; conv_rhs => rw [pMarks]
          simp [hva, hv2, hg]
      · have hc2m : parentCoords x y z ∈ (pMarks v1 x y z minZ).1 := by
          rw [pMarks]; simp [hva]
        have hv2 := H _ hc2m
        rw [pMarks]; conv_rhs => rw [pMarks]
        simp [hva, hv2]
  | succ n ih =>
      intro v1 v2 x y z hn H H2
      by_cases hg : minZ < z - 1
      · rcases hva : v1 (parentCoords x y z) with ⟨a, l⟩
        cases a
        · have hsub : ∀ k ∈ (pMarks v1 (parentCoords x y z).x (parentCoords x y z).y
              (z - 1) minZ).1, k ∈ (pMarks v1 x y z minZ).1 := by
            intro k hk
            rw [pMarks]
            cases l <;> simp [hva, hg, List.mem_append, hk]
          have hrec : pMarks v2 (parentCoords x y z).x (parentCoords x y z).y
              (z - 1) minZ = pMarks v1 (parentCoords x y z).x (parentCoords x y z).y
              (z - 1) minZ :=
            ih v1 v2 _ _ _ (measure_drop hg hn) (fun k hk => H k (hsub k hk)) H2
          cases l
          · have hv2 := H2 _ hva
            rw [pMarks]; conv_rhs => rw [pMarks]
            simp only [hva, hv2, hg, if_true, Bool.false_eq_true, if_false]
            rw [hrec]
          · have hc2m : parentCoords x y z ∈ (pMarks v1 x y z minZ).1 := by
              rw [pMarks]; simp [hva, hg]
            have hv2 := H _ hc2m
            rw [pMarks]; conv_rhs => rw [pMarks]
            simp only [hva, hv2, hg, if_true, Bool.false_eq_true, if_false]
            rw [hrec]
        · have hc2m : parentCoords x y z ∈ (pMarks v1 x y z minZ).1 := by
            rw [pMarks]; simp [hva]
          have hv2 := H _ hc2m
          rw [pMarks]; conv_rhs => rw [pMarks]
          simp [hva, hv2]
      · rcases hva : v1 (parentCoords x y z) with ⟨a, l⟩
        cases a
        · cases l
          · have hv2 := H2 _ hva
            rw [pMarks]; conv_rhs => rw [pMarks]
            simp [hva, hv2, hg]
          · have hc2m : parentCoords x y z ∈ (pMarks v1 x y z minZ).1 := by
              rw [pMarks]; simp [hva, hg]
            have hv2 := H _ hc2m
            rw [pMarks]; conv_rhs => rw [pMarks]
            simp [hva, hv2, hg]
        · have hc2m : parentCoords x y z ∈ (pMarks v1 x y z minZ).1 := by
            rw [pMarks]; simp [hva]
          have hv2 := H _ hc2m
          rw [pMarks]; conv_rhs => rw [pMarks]
          simp [hva, hv2]

/-- The children walk behaves identically under two views that agree on
all keys it marks and turn no inert key live. -/
lemma cmarks_congr (maxZ : ℚ) (n : ℕ) :
    (∀ (v1 v2 : TCoord → Bool × Bool) (i j z : ℚ), (⌈maxZ - z⌉).toNat ≤ n →
      (∀ k ∈ cVisitMarks v1 i j z maxZ, v2 k = v1 k) →
      (∀ k, v1 k = (false, false) → v2 k = v1 k) →
      cVisitMarks v2 i j z maxZ = cVisitMarks v1 i j z maxZ)
    ∧ (∀ (v1 v2 : TCoord → Bool × Bool) (x y z : ℚ), (⌈maxZ - z⌉).toNat ≤ n →
      (∀ k ∈ cMarks v1 x y z maxZ, v2 k = v1 k) →
      (∀ k, v1 k = (false, false) → v2 k = v1 k) →
      cMarks v2 x y z maxZ = cMarks v1 x y z maxZ) := by
  have hcm : ∀ (m : ℕ),
      (∀ (v1 v2 : TCoord → Bool × Bool) (i j z : ℚ), (⌈maxZ - z⌉).toNat ≤ m →
        (∀ k ∈ cVisitMarks v1 i j z maxZ, v2 k = v1 k) →
        (∀ k, v1 k = (false, false) → v2 k = v1 k) →
        cVisitMarks v2 i j z maxZ = cVisitMarks v1 i j z maxZ) →
      ∀ (v1 v2 : TCoord → Bool × Bool) (x y z : ℚ), (⌈maxZ - z⌉).toNat ≤ m →
        (∀ k ∈ cMarks v1 x y z maxZ, v2 k = v1 k) →
        (∀ k, v1 k = (false, false) → v2 k = v1 k) →
        cMarks v2 x y z maxZ = cMarks v1 x y z maxZ := by
    intro m hcv v1 v2 x y z hn H H2
    have hsub : ∀ (i j : ℚ), ∀ k ∈ cVisitMarks v1 i j z maxZ,
        (i = 2 * x ∧ j = 2 * y) ∨ (i = 2 * x ∧ j = 2 * y + 1)
          ∨ (i = 2 * x + 1 ∧ j = 2 * y) ∨ (i = 2 * x + 1 ∧ j = 2 * y + 1) →
        k ∈ cMarks v1 x y z maxZ := by
      intro i j k hk hij
      rw [cMarks]
      simp only [List.mem_append]
      rcases hij with ⟨hi, hj⟩ | ⟨hi, hj⟩ | ⟨hi, hj⟩ | ⟨hi, hj⟩ <;>
        subst hi <;> subst hj <;> tauto
    rw [cMarks]; conv_rhs => rw [cMarks]
    rw [hcv v1 v2 (2 * x) (2 * y) z hn
        (fun k hk => H k (hsub _ _ k hk (by tauto))) H2,
      hcv v1 v2 (2 * x) (2 * y + 1) z hn
        (fun k hk => H k (hsub _ _ k hk (by tauto))) H2,
      hcv v1 v2 (2 * x + 1) (2 * y) z hn
        (fun k hk => H k (hsub _ _ k hk (by tauto))) H2,
      hcv v1 v2 (2 * x + 1) (2 * y + 1) z hn
        (fun k hk => H k (hsub _ _ k hk (by tauto))) H2]
  induction n with
  | zero =>
      have hcv : ∀ (v1 v2 : TCoord → Bool × Bool) (i j z : ℚ), (⌈maxZ - z⌉).toNat ≤ 0 →
          (∀ k ∈ cVisitMarks v1 i j z maxZ, v2 k = v1 k) →
          (∀ k, v1 k = (false, false) → v2 k = v1 k) →
          cVisitMarks v2 i j z maxZ = cVisitMarks v1 i j z maxZ := by
        intro v1 v2 i j z hn H H2
        have hg := cguard_false_of_measure_zero hn
        rcases hva : v1 ⟨i, j, z + 1⟩ with ⟨a, l⟩
        cases a
        · cases l
          · have hv2 := H2 _ hva
            rw [cVisitMarks]; conv_rhs => rw [cVisitMarks]
            simp [hva, hv2, hg]
          · have hcm2 : (⟨i, j, z + 1⟩ : TCoord) ∈ cVisitMarks v1 i j z maxZ := by
              rw [cVisitMarks]; simp [hva, hg]
            have hv2 := H _ hcm2
            rw [cVisitMarks]; conv_rhs => rw [cVisitMarks]
            simp [hva, hv2, hg]
        · have hcm2 : (⟨i, j, z + 1⟩ : TCoord) ∈ cVisitMarks v1 i j z maxZ := by
            rw [cVisitMarks]; simp [hva]
          have hv2 := H _ hcm2
          rw [cVisitMarks]; conv_rhs => rw [cVisitMarks]
          simp [hva, hv2]
      exact ⟨hcv, hcm 0 hcv⟩
  | succ n ih =>
      have hcv : ∀ (v1 v2 : TCoord → Bool × Bool) (i j z : ℚ), (⌈maxZ - z⌉).toNat ≤ n + 1 →
          (∀ k ∈ cVisitMarks v1 i j z maxZ, v2 k = v1 k) →
          (∀ k, v1 k = (false, false) → v2 k = v1 k) →
          cVisitMarks v2 i j z maxZ = cVisitMarks v1 i j z maxZ := by
        intro v1 v2 i j z hn H H2
        by_cases hg : z + 1 < maxZ
        · rcases hva : v1 ⟨i, j, z + 1⟩ with ⟨a, l⟩
          cases a
          · have hsub : ∀ k ∈ cMarks v1 i j (z + 1) maxZ,
                k ∈ cVisitMarks v1 i j z maxZ := by
              intro k hk
              rw [cVisitMarks]
              cases l <;> simp [hva, hg, List.mem_append, hk]
            have hrec : cMarks v2 i j (z + 1) maxZ = cMarks v1 i j (z + 1) maxZ :=
              ih.2 v1 v2 i j (z + 1) (cmeasure_drop hg hn)
                (fun k hk => H k (hsub k hk)) H2
            cases l
            · have hv2 := H2 _ hva
              rw [cVisitMarks]; conv_rhs => rw [cVisitMarks]
              simp only [hva, hv2, hg, if_true, Bool.false_eq_true, if_false]
              rw [hrec]
            · have hcm2 : (⟨i, j, z + 1⟩ : TCoord) ∈ cVisitMarks v1 i j z maxZ := by
                rw [cVisitMarks]; simp [hva, hg]
              have hv2 := H _ hcm2
              rw [cVisitMarks]; conv_rhs => rw [cVisitMarks]
              simp only [hva, hv2, hg, if_true, Bool.false_eq_true, if_false]
              rw [hrec]
          · have hcm2 : (⟨i, j, z + 1⟩ : TCoord) ∈ cVisitMarks v1 i j z maxZ := by
              rw [cVisitMarks]; simp [hva]
            have hv2 := H _ hcm2
            rw [cVisitMarks]; conv_rhs => rw [cVisitMarks]
            simp [hva, hv2]
        · rcases hva : v1 ⟨i, j, z + 1⟩ with ⟨a, l⟩
          cases a
          · cases l
            · have hv2 := H2 _ hva
              rw [cVisitMarks]; conv_rhs => rw [cVisitMarks]
              simp [hva, hv2, hg]
            · have hcm2 : (⟨i, j, z + 1⟩ : TCoord) ∈ cVisitMarks v1 i j z maxZ := by
                rw [cVisitMarks]; simp [hva, hg]
              have hv2 := H _ hcm2
              rw [cVisitMarks]; conv_rhs => rw [cVisitMarks]
              simp [hva, hv2, hg]
          · have hcm2 : (⟨i, j, z + 1⟩ : TCoord) ∈ cVisitMarks v1 i j z maxZ := by
              rw [cVisitMarks]; simp [hva]
            have hv2 := H _ hcm2
            rw [cVisitMarks]; conv_rhs => rw [cVisitMarks]
            simp [hva, hv2]
      exact ⟨hcv, hcm (n + 1) hcv⟩

/-- A walker step behaves identically under two views agreeing on its
marked keys that turn no inert key live. -/
lemma walkMarks_congr (v1 v2 : TCoord → Bool × Bool) (c : TCoord)
    (H : ∀ k ∈ walkMarks v1 c, v2 k = v1 k)
    (H2 : ∀ k, v1 k = (false, false) → v2 k = v1 k) :
    walkMarks v2 c = walkMarks v1 c := by
  have hpsub : ∀ k ∈ (pMarks v1 c.x c.y c.z (c.z - 5)).1, k ∈ walkMarks v1 c := by
    intro k hk
    rw [walkMarks]
    by_cases hf : (pMarks v1 c.x c.y c.z (c.z - 5)).2 = true <;>
      simp [hf, List.mem_append, hk]
  have hp : pMarks v2 c.x c.y c.z (c.z - 5) = pMarks v1 c.x c.y c.z (c.z - 5) :=
    pMarks_congr (c.z - 5) (⌈c.z - (c.z - 5)⌉).toNat v1 v2 c.x c.y c.z le_rfl
      (fun k hk => H k (hpsub k hk)) H2
  rw [walkMarks, walkMarks, hp]
  by_cases hf : (pMarks v1 c.x c.y c.z (c.z - 5)).2 = true
  · simp [hf]
  · have hcsub : ∀ k ∈ cMarks v1 c.x c.y c.z (c.z + 2), k ∈ walkMarks v1 c := by
      intro k hk
      rw [walkMarks]
      simp [hf, List.mem_append, hk]
    have hc : cMarks v2 c.x c.y c.z (c.z + 2) = cMarks v1 c.x c.y c.z (c.z + 2) :=
      (cmarks_congr (c.z + 2) (⌈c.z + 2 - c.z⌉).toNat).2 v1 v2 c.x c.y c.z le_rfl
        (fun k hk => H k (hcsub k hk)) H2
    simp [hf, hc]

/-- The whole walker loop marks the same keys under pointwise-equal
walker behaviour. -/
lemma allMarks_congr (v1 v2 : TCoord → Bool × Bool) :
    ∀ ws : List TCoord, (∀ w ∈ ws, walkMarks v2 w = walkMarks v1 w) →
      allMarks v2 ws = allMarks v1 ws
  | [], _ => rfl
  | w :: ws, h => by
      rw [allMarks, allMarks, h w (by simp),
        allMarks_congr v1 v2 ws (fun w' hw' => h w' (by simp [hw']))]

/-! ### Lookup, filtering and the characterisation of one prune pass -/

lemma lookupTile_filter_pos (p : TCoord × Tile → Bool) (k : TCoord) (t : Tile) :
    ∀ ts : TileCache, lookupTile k ts = some t → p (k, t) = true →
      lookupTile k (ts.filter p) = some t
  | [], h, _ => by simp [lookupTile] at h
  | (k', t') :: rest, h, hp => by
      by_cases hk : k' = k
      · subst hk
        rw [lookupTile] at h
        simp at h
        subst h
        simp [List.filter, hp, lookupTile]
      · rw [lookupTile, if_neg hk] at h
        by_cases hpt : p (k', t') = true <;>
          simp [List.filter, hpt, lookupTile, hk,
            lookupTile_filter_pos p k t rest h hp]

lemma lookupTile_filter_none (p : TCoord × Tile → Bool) (k : TCoord) :
    ∀ ts : TileCache, lookupTile k ts = none → lookupTile k (ts.filter p) = none
  | [], _ => by simp [lookupTile]
  | (k', t') :: rest, h => by
      by_cases hk : k' = k
      · subst hk; rw [lookupTile] at h; simp at h
      · rw [lookupTile, if_neg hk] at h
        by_cases hpt : p (k', t') = true <;>
          simp [List.filter, hpt, lookupTile, hk,
            lookupTile_filter_none p k rest h]

lemma lookupTile_none_of_not_mem (k : TCoord) :
    ∀ ts : TileCache, k ∉ ts.map Prod.fst → lookupTile k ts = none
  | [], _ => rfl
  | (k', t') :: rest, h => by
      simp only [List.map_cons, List.mem_cons] at h
      push_neg at h
      rw [lookupTile, if_neg (fun hk => h.1 hk.symm)]
      exact lookupTile_none_of_not_mem k rest h.2

lemma keys_filter_subset (p : TCoord × Tile → Bool) (k : TCoord) (ts : TileCache)
    (h : k ∈ (ts.filter p).map Prod.fst) : k ∈ ts.map Prod.fst := by
  simp only [List.mem_map] at h ⊢
  obtain ⟨e, he, hk⟩ := h
  exact ⟨e, List.mem_of_mem_filter he, hk⟩

lemma lookupTile_filter_neg (p : TCoord × Tile → Bool) (k : TCoord) (t : Tile) :
    ∀ ts : TileCache, (ts.map Prod.fst).Nodup →
      lookupTile k ts = some t → p (k, t) = false →
      lookupTile k (ts.filter p) = none
  | [], _, h, _ => by simp [lookupTile] at h
  | (k', t') :: rest, nd, h, hp => by
      rw [List.map_cons, List.nodup_cons] at nd
      by_cases hk : k' = k
      · subst hk
        rw [lookupTile] at h
        simp at h
        subst h
        rw [List.filter, hp]
        exact lookupTile_filter_none p k' rest
          (lookupTile_none_of_not_mem k' rest nd.1)
      · rw [lookupTile, if_neg hk] at h
        by_cases hpt : p (k', t') = true <;>
          simp [List.filter, hpt, lookupTile, hk,
            lookupTile_filter_neg p k t rest nd.2 h hp]

lemma filter_map_val (g : TCoord → Tile → Tile) (p : TCoord × Tile → Bool)
    (ts : TileCache) :
    ((ts.map fun e => (e.1, g e.1 e.2)).filter p)
      = (ts.filter fun e => p (e.1, g e.1 e.2)).map fun e => (e.1, g e.1 e.2) := by
  rw [List.filter_map]
  rfl

lemma bview_map_val (g : TCoord → Tile → Tile)
    (hg : ∀ k t, (g k t).active = t.active ∧ (g k t).loaded = t.loaded)
    (ts : TileCache) :
    bview (ts.map fun e => (e.1, g e.1 e.2)) = bview ts := by
  funext c
  rw [bview, bview, lookupTile_map_val]
  cases lookupTile c ts with
  | none => rfl
  | some t => simp [(hg c t).1, (hg c t).2]

lemma bview_setRC (ts : TileCache) : bview (setRC ts) = bview ts := by
  unfold setRC
  exact bview_map_val (fun _ t => { t with retain := t.current })
    (fun _ _ => ⟨rfl, rfl⟩) ts

lemma walkersOf_setRC (ts : TileCache) : walkersOf (setRC ts) = walkersOf ts := by
  unfold walkersOf setRC
  rw [List.filter_map, List.map_map]
  rfl

lemma lookupTile_map_retTrue (k : TCoord) (ts : TileCache) :
    lookupTile k (ts.map retTrue)
      = (lookupTile k ts).map fun t => { t with retain := true } := by
  unfold retTrue
  exact lookupTile_map_val (fun _ t => { t with retain := true }) k ts

/-- One in-range prune pass keeps exactly the current-or-marked entries,
with their `retain` flags set. -/
lemma prune_char (zoom minZ maxZ : ℚ) (ts : TileCache)
    (h : ¬ (zoom > maxZ ∨ zoom < minZ)) :
    pruneTiles true zoom minZ maxZ ts
      = (ts.filter (keptB (bigMarks ts))).map retTrue := by
  have hbody : pruneTiles true zoom minZ maxZ ts
      = ((walkersOf (setRC ts)).foldl pruneWalk (setRC ts)).filter
          fun e => e.2.retain := by
    rw [pruneTiles]
    simp only [Bool.not_true, Bool.false_eq_true, if_false, h]
    rfl
  rw [hbody, foldl_pruneWalk_spec, bview_setRC, walkersOf_setRC, ← bigMarks]
  have hAM : applyMarks (bigMarks ts) (setRC ts)
      = ts.map fun e =>
          (e.1, { e.2 with retain := e.2.current || decide (e.1 ∈ bigMarks ts) }) := by
    unfold applyMarks setRC
    rw [List.map_map]
    refine List.map_congr_left fun e _ => ?_
    by_cases hm : e.1 ∈ bigMarks ts <;> simp [Function.comp, hm]
  rw [hAM, filter_map_val (fun k t => { t with retain := t.current || decide (k ∈ bigMarks ts) })]
  show (ts.filter (keptB (bigMarks ts))).map _ = _
  refine List.map_congr_left fun e he => ?_
  have hkept : keptB (bigMarks ts) e = true := (List.mem_filter.mp he).2
  unfold keptB at hkept
  simp [retTrue, hkept]

lemma filter_filter_absorb (p q : TCoord × Tile → Bool)
    (h : ∀ e, q e = true → p e = true) :
    ∀ l : TileCache, (l.filter p).filter q = l.filter q
  | [] => rfl
  | e :: l => by
      by_cases hq : q e = true
      · rw [List.filter_cons, List.filter_cons, if_pos (h e hq), List.filter_cons,
          if_pos hq, if_pos hq, filter_filter_absorb p q h l]
      · by_cases hp : p e = true <;>
          simp [List.filter_cons, hp, hq, filter_filter_absorb p q h l]

/-- Filtering out only non-current entries and re-flagging `retain` does not
change the walker list of the next pass. -/
lemma walkersOf_filter_retTrue (K : TCoord × Tile → Bool)
    (hK : ∀ e : TCoord × Tile, e.2.current = true → K e = true) (ts : TileCache) :
    walkersOf ((ts.filter K).map retTrue) = walkersOf ts := by
  have h1 : walkersOf ((ts.filter K).map retTrue)
      = (((ts.filter K).filter fun e => e.2.current && !e.2.active).map
          fun e => e.2.coords) := by
    unfold walkersOf retTrue
    rw [List.filter_map, List.map_map]
    rfl
  rw [h1, filter_filter_absorb K (fun e => e.2.current && !e.2.active)
    (fun e hq => hK e ((Bool.and_eq_true _ _).mp hq).1) ts]
  rfl

/-- On keys it marked (hence saw live), the pruned cache looks to the walks
exactly like the original cache. -/
lemma bview_prune_marked (ts : TileCache) (k : TCoord)
    (hk : k ∈ bigMarks ts)
    (hlive : (bview ts k).1 = true ∨ (bview ts k).2 = true) :
    bview ((ts.filter (keptB (bigMarks ts))).map retTrue) k = bview ts k := by
  rcases hlook : lookupTile k ts with _ | t
  · unfold bview at hlive
    rw [hlook] at hlive
    simp at hlive
  · have hkept : keptB (bigMarks ts) (k, t) = true := by
      unfold keptB; simp [hk]
    have h1 := lookupTile_filter_pos (keptB (bigMarks ts)) k t ts hlook hkept
    unfold bview
    rw [lookupTile_map_retTrue, h1, hlook]
    rfl

/-- On keys it saw inert, the pruned cache still looks inert (the entry
either survives with `active`/`loaded` untouched or is gone; absent entries
behave identically to inert ones). -/
lemma bview_prune_inert (ts : TileCache) (nd : (ts.map Prod.fst).Nodup) (k : TCoord)
    (h : bview ts k = (false, false)) :
    bview ((ts.filter (keptB (bigMarks ts))).map retTrue) k = bview ts k := by
  rcases hlook : lookupTile k ts with _ | t
  · have h1 := lookupTile_filter_none (keptB (bigMarks ts)) k ts hlook
    unfold bview
    rw [lookupTile_map_retTrue, h1, hlook]
    rfl
  · have hal : t.active = false ∧ t.loaded = false := by
      unfold bview at h
      rw [hlook] at h
      simpa using h
    by_cases hkept : keptB (bigMarks ts) (k, t) = true
    · have h1 := lookupTile_filter_pos (keptB (bigMarks ts)) k t ts hlook hkept
      unfold bview
      rw [lookupTile_map_retTrue, h1, hlook]
      rfl
    · have h1 := lookupTile_filter_neg (keptB (bigMarks ts)) k t ts nd hlook
        (by simpa using hkept)
      unfold bview
      rw [lookupTile_map_retTrue, h1, hlook]
      simp [hal.1, hal.2]

/-- The second pass marks exactly the keys the first pass marked. -/
lemma bigMarks_prune (ts : TileCache) (nd : (ts.map Prod.fst).Nodup) :
    bigMarks ((ts.filter (keptB (bigMarks ts))).map retTrue) = bigMarks ts := by
  show allMarks (bview ((ts.filter (keptB (bigMarks ts))).map retTrue))
      (walkersOf ((ts.filter (keptB (bigMarks ts))).map retTrue))
    = allMarks (bview ts) (walkersOf ts)
  rw [walkersOf_filter_retTrue (keptB (bigMarks ts))
    (fun e hc => by unfold keptB; simp [hc]) ts]
  refine allMarks_congr (bview ts) _ (walkersOf ts) fun w hw => ?_
  refine walkMarks_congr (bview ts) _ w (fun k hk => ?_)
    (fun k h => bview_prune_inert ts nd k h)
  exact bview_prune_marked ts k
    ((mem_allMarks (bview ts) k (walkersOf ts)).mpr ⟨w, hw, hk⟩)
    (walkMarks_mem (bview ts) w k hk)

/-- Claim C5: prune is idempotent — for every tile-cache state (with
distinct keys), running `_pruneTiles` twice in succession with no
intervening view change leaves the cache exactly as after the first run,
so the second run removes no additional tiles. -/
theorem pruneTiles_idempotent (mapPresent : Bool) (zoom minZ maxZ : ℚ)
    (ts : TileCache) (nd : (ts.map Prod.fst).Nodup) :
    pruneTiles mapPresent zoom minZ maxZ (pruneTiles mapPresent zoom minZ maxZ ts)
      = pruneTiles mapPresent zoom minZ maxZ ts := by
  cases mapPresent with
  | false => rfl
  | true =>
      by_cases h : zoom > maxZ ∨ zoom < minZ
      · have he : pruneTiles true zoom minZ maxZ ts = [] := by
          rw [pruneTiles]; simp [h]
        have he2 : pruneTiles true zoom minZ maxZ [] = [] := by
          rw [pruneTiles]; simp [h]
        rw [he, he2]
      · rw [prune_char zoom minZ maxZ ts h,
          prune_char zoom minZ maxZ ((ts.filter (keptB (bigMarks ts))).map retTrue) h,
          bigMarks_prune ts nd]
        have hfe : (((ts.filter (keptB (bigMarks ts))).map retTrue).filter
              (keptB (bigMarks ts)))
            = (ts.filter (keptB (bigMarks ts))).map retTrue := by
          rw [List.filter_eq_self]
          intro e he
          rw [List.mem_map] at he
          obtain ⟨e0, he0, rfl⟩ := he
          exact (List.mem_filter.mp he0).2
        rw [hfe, List.map_map]
        rfl

/-- Witness for the prune-idempotence theorem: a concrete two-tile cache
with distinct keys. -/
theorem pruneTiles_idempotent_witness :
    (((([(⟨0, 0, 1⟩, ⟨⟨0, 0, 1⟩, true, true, false, false⟩),
        (⟨1, 0, 1⟩, ⟨⟨1, 0, 1⟩, false, true, false, false⟩)] : TileCache)).map
          Prod.fst).Nodup)
    ∧ pruneTiles true 1 0 18
        (pruneTiles true 1 0 18
          [(⟨0, 0, 1⟩, ⟨⟨0, 0, 1⟩, true, true, false, false⟩),
           (⟨1, 0, 1⟩, ⟨⟨1, 0, 1⟩, false, true, false, false⟩)])
      = pruneTiles true 1 0 18
          [(⟨0, 0, 1⟩, ⟨⟨0, 0, 1⟩, true, true, false, false⟩),
           (⟨1, 0, 1⟩, ⟨⟨1, 0, 1⟩, false, true, false, false⟩)] :=
  ⟨by decide, pruneTiles_idempotent true 1 0 18
    [(⟨0, 0, 1⟩, ⟨⟨0, 0, 1⟩, true, true, false, false⟩),
     (⟨1, 0, 1⟩, ⟨⟨1, 0, 1⟩, false, true, false, false⟩)] (by decide)⟩


lemma sphMercR_pos : (0 : ℝ) < sphMercR := by unfold sphMercR; norm_num

lemma epsgA_pos : (0 : ℝ) < epsgA := by
  unfold epsgA
  exact div_pos (by norm_num) (mul_pos Real.pi_pos sphMercR_pos)

lemma crsScale_zero : crsScale 0 = 1 := Real.rpow_zero 2

lemma crsScale_pos (z : ℝ) : 0 < crsScale z := Real.rpow_pos_of_pos (by norm_num) z

/-- At the equator the projection has mercator `y = 0` and the plain
linear `x`. -/
lemma sphProject_lat0 (lng : ℝ) :
    sphProject ⟨0, lng⟩ = ⟨sphMercR * lng * (Real.pi / 180), 0⟩ := by
  have hc : max (min maxLatitude 0) (-maxLatitude) = 0 := by
    unfold maxLatitude
    rw [min_def, max_def]
    norm_num
  simp only [sphProject, hc]
  norm_num

/-- At zoom 0 and the equator, the pixel `x` is affine in the longitude
and the pixel `y` is the world middle 128. -/
lemma latLngToPoint_lat0 (lng : ℝ) :
    latLngToPoint ⟨0, lng⟩ 0 = ⟨32 * lng / 45 + 128, 128⟩ := by
  have hπ : Real.pi ≠ 0 := Real.pi_ne_zero
  have hR : sphMercR ≠ 0 := ne_of_gt sphMercR_pos
  unfold latLngToPoint
  rw [sphProject_lat0, crsScale_zero]
  simp only [TransformationR.transform, epsg3857T, epsgA, one_ne_zero, if_neg,
    PointR.mk.injEq]
  constructor
  · field_simp
    ring
  · norm_num

/-- At zoom 0 a pixel point on the world middle `y = 128` unprojects to
the equator, with longitude affine in the pixel `x`. -/
lemma pointToLatLng_y128 (xp : ℝ) :
    pointToLatLng ⟨xp, 128⟩ 0 = ⟨0, (xp - 128) * 45 / 32⟩ := by
  have hπ : Real.pi ≠ 0 := Real.pi_ne_zero
  have hR : sphMercR ≠ 0 := ne_of_gt sphMercR_pos
  unfold pointToLatLng
  rw [crsScale_zero]
  simp only [TransformationR.untransform, epsg3857T, epsgA, one_ne_zero, if_false]
  have hy : ((128 : ℝ) / 1 - 128) / -(128 / (Real.pi * sphMercR)) = 0 := by
    norm_num
  rw [hy]
  simp only [sphUnproject, LatLngR.mk.injEq]
  constructor
  · rw [zero_div, Real.exp_zero, Real.arctan_one]
    ring
  · field_simp
    ring

/-- The spherical-mercator round trip is exact on `ℝ` inside the
latitude clamp: `unproject(project(latlng)) = latlng`. -/
lemma sph_roundtrip (lat lng : ℝ) (hlat : |lat| ≤ maxLatitude) :
    sphUnproject (sphProject ⟨lat, lng⟩) = ⟨lat, lng⟩ := by
  have hπ : (0 : ℝ) < Real.pi := Real.pi_pos
  have hπ0 : Real.pi ≠ 0 := Real.pi_ne_zero
  have hR : sphMercR ≠ 0 := ne_of_gt sphMercR_pos
  have hM : maxLatitude < 90 := by unfold maxLatitude; norm_num
  obtain ⟨hlat1, hlat2⟩ := abs_le.mp hlat
  have hclamp : max (min maxLatitude lat) (-maxLatitude) = lat := by
    rw [min_eq_right hlat2, max_eq_left hlat1]
  set θ := lat * (Real.pi / 180) with hθdef
  have hθ1 : -(Real.pi / 2) < θ := by
    rw [hθdef]
    nlinarith
  have hθ2 : θ < Real.pi / 2 := by
    rw [hθdef]
    nlinarith
  set t := θ / 2 + Real.pi / 4 with htdef
  have ht1 : 0 < t := by rw [htdef]; linarith
  have ht2 : t < Real.pi / 2 := by rw [htdef]; linarith
  have hcos : 0 < Real.cos t :=
    Real.cos_pos_of_mem_Ioo ⟨by linarith, ht2⟩
  have hsin : 0 < Real.sin t :=
    Real.sin_pos_of_pos_of_lt_pi ht1 (lt_trans ht2 (half_lt_self hπ))
  have h2t : 2 * t = θ + Real.pi / 2 := by rw [htdef]; ring
  have hsθ : Real.sin θ = -Real.cos (2 * t) := by
    rw [h2t, Real.cos_add_pi_div_two, neg_neg]
  have hpyth := Real.sin_sq_add_cos_sq t
  have hplus : 1 + Real.sin θ = 2 * Real.sin t ^ 2 := by
    rw [hsθ, Real.cos_two_mul]
    linarith
  have hminus : 1 - Real.sin θ = 2 * Real.cos t ^ 2 := by
    rw [hsθ, Real.cos_two_mul]
    ring
  have hu : (1 + Real.sin θ) / (1 - Real.sin θ)
      = (Real.sin t / Real.cos t) ^ 2 := by
    rw [hplus, hminus]
    field_simp
    ring
  have hupos : 0 < (1 + Real.sin θ) / (1 - Real.sin θ) := by
    rw [hu]
    positivity
  have hexp : Real.exp (Real.log ((1 + Real.sin θ) / (1 - Real.sin θ)) / 2)
      = Real.sin t / Real.cos t := by
    rw [hu, Real.log_pow]
    push_cast
    have h22 : (2 : ℝ) * Real.log (Real.sin t / Real.cos t) / 2
        = Real.log (Real.sin t / Real.cos t) := by ring
    rw [h22, Real.exp_log (div_pos hsin hcos)]
  have harc : Real.arctan (Real.sin t / Real.cos t) = t := by
    rw [← Real.tan_eq_sin_div_cos]
    exact Real.arctan_tan (by linarith) ht2
  simp only [sphProject, sphUnproject, hclamp, LatLngR.mk.injEq]
  rw [← hθdef]
  constructor
  · have hyR : sphMercR * Real.log ((1 + Real.sin θ) / (1 - Real.sin θ)) / 2
        / sphMercR = Real.log ((1 + Real.sin θ) / (1 - Real.sin θ)) / 2 := by
      field_simp
      ring
    rw [hyR, hexp, harc, h2t]
    field_simp
    ring
  · field_simp

/-- Claim C8: for every LatLng inside the spherical-mercator valid
bounds (latitude within ±85.0511287798 degrees, longitude within the
±180-degree world bounds), `unproject(project(latlng))` equals the
original within 1e-9 degrees in both components — in the real-valued
embedding the round trip is exact. -/
theorem sph_project_unproject_roundtrip (lat lng : ℝ)
    (hlat : |lat| ≤ 85.0511287798) (hlng : |lng| ≤ 180) :
    |(sphUnproject (sphProject ⟨lat, lng⟩)).lat - lat| ≤ 1 / 1000000000
    ∧ |(sphUnproject (sphProject ⟨lat, lng⟩)).lng - lng| ≤ 1 / 1000000000 := by
  have hexact : sphUnproject (sphProject ⟨lat, lng⟩) = ⟨lat, lng⟩ :=
    sph_roundtrip lat lng (by unfold maxLatitude; exact_mod_cast hlat)
  rw [hexact]
  norm_num

/-- Witness for the round-trip theorem at latitude 30, longitude 100. -/
theorem sph_project_unproject_roundtrip_witness :
    |(30 : ℝ)| ≤ 85.0511287798 ∧ |(100 : ℝ)| ≤ 180
    ∧ (|(sphUnproject (sphProject ⟨30, 100⟩)).lat - 30| ≤ 1 / 1000000000
      ∧ |(sphUnproject (sphProject ⟨30, 100⟩)).lng - 100| ≤ 1 / 1000000000) :=
  ⟨by norm_num, by norm_num,
    sph_project_unproject_roundtrip 30 100 (by norm_num) (by norm_num)⟩

/-- Claim C1: `setView(c, z)` is claimed to clamp the requested center
`c` to `maxBounds` by the minimal per-axis pixel offset.  The code
passes the constructor-time `this.center` to `_limitCenter` instead of
`c`, and `_getBoundsOffset` stores the projected bounds corners
swapped through the non-normalising `Bounds` constructor, so on
`mapC1` the view after `setView((0°, 170°), 0)` has center
`(0°, 22.5°)` (the bounds mid-longitude, recentred even though the
constructor-time center already lay inside the bounds), while the
specified clamp of `(0°, 170°)` is `(0°, 715/32°) = (0°, 22.34375°)`;
moreover the resulting center is independent of the requested one. -/
theorem setView_ignores_requested_center :
    setViewCenterR mapC1 ⟨0, 170⟩ 0 = ⟨0, 45 / 2⟩
    ∧ specLimitCenter mapC1 ⟨0, 170⟩ 0 mapC1.maxBounds = ⟨0, 715 / 32⟩
    ∧ ((45 : ℝ) / 2 ≠ 715 / 32)
    ∧ ∀ c cc : LatLngR, setViewCenterR mapC1 c 0 = setViewCenterR mapC1 cc 0 := by
  have hp0 : latLngToPoint ⟨0, 0⟩ 0 = ⟨128, 128⟩ := by
    rw [latLngToPoint_lat0]; norm_num
  have hp45 : latLngToPoint ⟨0, 45⟩ 0 = ⟨160, 128⟩ := by
    rw [latLngToPoint_lat0]; norm_num
  have hp170 : latLngToPoint ⟨0, 170⟩ 0 = ⟨2240 / 9, 128⟩ := by
    rw [latLngToPoint_lat0]; norm_num
  have hmb : mapC1.maxBounds = some ⟨⟨0, 0⟩, ⟨0, 45⟩⟩ := by
    show some (mkLatLngBounds ⟨0, 0⟩ ⟨0, 45⟩) = _
    unfold mkLatLngBounds
    norm_num
  have hz : limitZoomR mapC1 0 = 0 := by
    unfold limitZoomR mapC1 jsRoundR
    norm_num
  refine ⟨?_, ?_, by norm_num, fun c cc => rfl⟩
  · unfold setViewCenterR
    rw [hz, hmb]
    show limitCenterR mapC1 ⟨0, 0⟩ 0 (some ⟨⟨0, 0⟩, ⟨0, 45⟩⟩) = _
    unfold limitCenterR getBoundsOffsetR rebound
    dsimp only [PointR.divideBy, PointR.subtract, PointR.add, PointR.round, mapC1]
    rw [hp0, hp45]
    dsimp only [PointR.subtract]
    norm_num [jsRoundR, pointToLatLng_y128, LatLngR.mk.injEq]
  · rw [hmb]
    unfold specLimitCenter rebound
    dsimp only [PointR.divideBy, PointR.subtract, PointR.add, mapC1]
    rw [hp170, hp45, hp0]
    dsimp only [PointR.subtract]
    norm_num [jsRoundR, pointToLatLng_y128, LatLngR.mk.injEq]

/-- At zoom 0 the pixel `x` of any point is affine in its longitude
(the latitude clamp touches only `y`). -/
lemma latLngToPoint_x0 (ll : LatLngR) :
    (latLngToPoint ll 0).x = 32 * ll.lng / 45 + 128 := by
  have hπ : Real.pi ≠ 0 := Real.pi_ne_zero
  have hR : sphMercR ≠ 0 := ne_of_gt sphMercR_pos
  have hx : (sphProject ll).x = sphMercR * ll.lng * (Real.pi / 180) := rfl
  simp only [latLngToPoint, TransformationR.transform, epsg3857T, epsgA,
    crsScale_zero, hx, one_ne_zero, if_false]
  field_simp
  ring

/-- The north pole clamps to `MAX_LATITUDE`; at zoom 0 its pixel `y`
is `128 - epsgA·Y` for the mercator height `Y` of the clamp latitude. -/
lemma latLngToPoint_y_nw :
    (latLngToPoint ⟨90, -180⟩ 0).y
      = -epsgA * (sphMercR * Real.log
          ((1 + Real.sin (maxLatitude * (Real.pi / 180)))
            / (1 - Real.sin (maxLatitude * (Real.pi / 180)))) / 2) + 128 := by
  have hM0 : (0 : ℝ) < maxLatitude := by unfold maxLatitude; norm_num
  have hM90 : maxLatitude < 90 := by unfold maxLatitude; norm_num
  have hcl : max (min maxLatitude 90) (-maxLatitude) = maxLatitude := by
    rw [min_eq_left (le_of_lt hM90), max_eq_left (by linarith)]
  simp only [latLngToPoint, TransformationR.transform, epsg3857T,
    crsScale_zero, sphProject, hcl, one_ne_zero, if_false]
  ring

/-- The south pole clamps to `-MAX_LATITUDE`; its mercator height is
the negative of the north one, so at zoom 0 its pixel `y` is
`128 + epsgA·Y`. -/
lemma latLngToPoint_y_se :
    (latLngToPoint ⟨-90, 180⟩ 0).y
      = epsgA * (sphMercR * Real.log
          ((1 + Real.sin (maxLatitude * (Real.pi / 180)))
            / (1 - Real.sin (maxLatitude * (Real.pi / 180)))) / 2) + 128 := by
  have hM0 : (0 : ℝ) < maxLatitude := by unfold maxLatitude; norm_num
  have hM90 : maxLatitude < 90 := by unfold maxLatitude; norm_num
  have hs1 : Real.sin (maxLatitude * (Real.pi / 180)) < 1 := by
    calc Real.sin (maxLatitude * (Real.pi / 180)) < Real.sin (Real.pi / 2) := by
          apply Real.sin_lt_sin_of_lt_of_le_pi_div_two
          · have := Real.pi_pos
            nlinarith
          · exact le_refl _
          · have hp : (0 : ℝ) < (90 - maxLatitude) * Real.pi :=
              mul_pos (by linarith) Real.pi_pos
            nlinarith
      _ = 1 := Real.sin_pi_div_two
  have hsn : 0 < Real.sin (maxLatitude * (Real.pi / 180)) := by
    apply Real.sin_pos_of_pos_of_lt_pi
    · have := Real.pi_pos
      positivity
    · have hp : (0 : ℝ) < (90 - maxLatitude) * Real.pi :=
        mul_pos (by linarith) Real.pi_pos
      have := Real.pi_pos
      nlinarith
  have hcl : max (min maxLatitude (-90)) (-maxLatitude) = -maxLatitude := by
    rw [min_eq_right (by linarith), max_eq_right (by linarith)]
  have hneg : (-maxLatitude) * (Real.pi / 180)
      = -(maxLatitude * (Real.pi / 180)) := by ring
  have hlog : Real.log
      ((1 + Real.sin (-(maxLatitude * (Real.pi / 180))))
        / (1 - Real.sin (-(maxLatitude * (Real.pi / 180)))))
      = -Real.log
          ((1 + Real.sin (maxLatitude * (Real.pi / 180)))
            / (1 - Real.sin (maxLatitude * (Real.pi / 180)))) := by
    rw [Real.sin_neg]
    rw [show (1 : ℝ) + -Real.sin (maxLatitude * (Real.pi / 180))
        = 1 - Real.sin (maxLatitude * (Real.pi / 180)) by ring]
    rw [show (1 : ℝ) - -Real.sin (maxLatitude * (Real.pi / 180))
        = 1 + Real.sin (maxLatitude * (Real.pi / 180)) by ring]
    rw [Real.log_div (by linarith) (by linarith),
      Real.log_div (by linarith) (by linarith)]
    ring
  simp only [latLngToPoint, TransformationR.transform, epsg3857T,
    crsScale_zero, sphProject, hcl, one_ne_zero, if_false, hneg, hlog]
  ring

/-- `getScaleZoom` of a negative scale: `crs.zoom` is NaN, which the
method converts to `Infinity`. -/
lemma getScaleZoom_neg (scale fromZoom : ℝ) (h : scale < 0) :
    getScaleZoomR scale fromZoom = .pinf := by
  have hneg : scale * crsScale fromZoom < 0 :=
    mul_neg_of_neg_of_pos h (crsScale_pos _)
  unfold getScaleZoomR crsZoomJS
  rw [if_neg (by linarith), if_neg (by linarith)]

/-- The tail of `getBoundsZoom` after the scale computation, for a
negative scale with a truthy snap: the NaN-turned-`Infinity` zoom
passes through the snap arithmetic and clamps to `maxZoom`. -/
lemma boundsZoomTail (mn mx snap s : ℝ) (hsnap : snap ≠ 0) (hS : s < 0)
    (hmn : mn ≤ mx) :
    clampZoomJS mn mx
        (if snap = 0 then getScaleZoomR s 0 else snapStepR snap false (getScaleZoomR s 0))
      = .fin mx := by
  rw [if_neg hsnap, getScaleZoom_neg s 0 hS]
  show JSx.fin (max mn mx) = _
  rw [max_eq_right hmn]

/-- Claim C7: `getBoundsZoom` on a whole-world `LatLngBounds` with a
512×512 viewport is claimed to return a zoom ≤ 1 at which the world
fits.  The code builds `boundsSize` through the non-normalising
`Bounds` constructor with `topLeft := project(southEast)` and
`bottomRight := project(northWest)`, so both components of
`boundsSize` are negative, the chosen per-axis scale factor is
negative, `getScaleZoom` turns the resulting NaN into `Infinity`, and
the final clamp returns `maxZoom` = 18. -/
theorem getBoundsZoom_world_returns_maxZoom :
    getBoundsZoomR mapC7 (mkLatLngBounds ⟨-90, -180⟩ ⟨90, 180⟩) false ⟨0, 0⟩
      = JSx.fin 18
    ∧ ¬ ((18 : ℝ) ≤ 1) := by
  refine ⟨?_, by norm_num⟩
  have hworld : mkLatLngBounds ⟨-90, -180⟩ ⟨90, 180⟩
      = ⟨⟨-90, -180⟩, ⟨90, 180⟩⟩ := by
    unfold mkLatLngBounds
    norm_num
  rw [hworld]
  have hxnw : (latLngToPoint ⟨(90 : ℝ), -180⟩ 0).x = 0 := by
    rw [latLngToPoint_x0]; norm_num
  have hxse : (latLngToPoint ⟨(-90 : ℝ), 180⟩ 0).x = 256 := by
    rw [latLngToPoint_x0]; norm_num
  unfold getBoundsZoomR
  dsimp only [LatLngBoundsR.getNorthWest, LatLngBoundsR.getSouthEast,
    BoundsR.getSize, PointR.subtract, mapC7]
  rw [hxnw, hxse, latLngToPoint_y_nw, latLngToPoint_y_se]
  apply boundsZoomTail 0 18 1 _ one_ne_zero ?_ (by norm_num)
  apply lt_of_le_of_lt (min_le_left _ _)
  norm_num

end GisCloud
